import Mathlib

/-!
# A shallow embedding of the `@devchris/lru` LRU cache

The source is a TypeScript class `LRUMap<K, V>` built from a `Map` (the
key index, `keymap`) and an intrusive doubly linked list of `Entry`
objects threaded through `older`/`newer` references, with `oldest` and
`newest` endpoints.

The embedding replaces the mutable object graph by an *arena*: a list of
`Entry` records addressed by `Nat` ids.  An object reference
`Entry | undefined` becomes an `Option Nat` into the arena; a field
assignment becomes a point update of the arena (`upd`).  `new Entry`
appends to the arena (the arena only grows, matching the garbage
collector keeping unreachable objects alive: removed entries simply stop
being referenced).  The `Map` becomes an association list `K × Nat`
with JavaScript `Map` semantics (`mapGet`/`mapSet`/`mapDelete`): `set`
replaces in place, keys are unique, `size` is the number of pairs.

JavaScript numerics: `size` and `limit` are exact small integers in
every state the claims quantify over, so they are `Nat` here.  In
`assign`, `this.limit || Number.MAX_VALUE` produces either the positive
limit or `Number.MAX_VALUE`; since `Number.MAX_VALUE - 1` rounds back to
`Number.MAX_VALUE` in double precision, the `limit-- === 0` guard can
never fire in the `MAX_VALUE` case, which the embedding renders as fuel
`none` (unbounded).  An exception (`throw new Error('overflow')`) is
rendered as a `Bool` result paired with the state at the throw point,
because the TypeScript mutations performed before the throw persist.
-/

universe u v

/-- One cache entry: `src/index.ts` class `Entry` — key, value and the
intrusive `NEWER`/`OLDER` links, here arena ids. -/
structure Entry (K : Type u) (V : Type v) where
  key : K
  value : V
  newer : Option Nat
  older : Option Nat
deriving DecidableEq

/-- The cache: class `LRUMap` — `size`, `limit`, the `oldest`/`newest`
endpoints, the key index `keymap`, plus the arena holding the entry
objects. -/
structure LRUMap (K : Type u) (V : Type v) where
  size : Nat
  limit : Nat
  oldest : Option Nat
  newest : Option Nat
  keymap : List (K × Nat)
  arena : List (Entry K V)
deriving DecidableEq

variable {K : Type u} {V : Type v}

/-- JavaScript `Map.prototype.get` on the association list. -/
def mapGet [DecidableEq K] : List (K × Nat) → K → Option Nat
  | [], _ => none
  | (k', i) :: rest, k => if k' = k then some i else mapGet rest k

/-- JavaScript `Map.prototype.set`: replaces the pair in place if the key
is present, else appends. -/
def mapSet [DecidableEq K] : List (K × Nat) → K → Nat → List (K × Nat)
  | [], k, i => [(k, i)]
  | (k', i') :: rest, k, i =>
      if k' = k then (k, i) :: rest else (k', i') :: mapSet rest k i

/-- JavaScript `Map.prototype.delete` (result value discarded). -/
def mapDelete [DecidableEq K] : List (K × Nat) → K → List (K × Nat)
  | [], _ => []
  | (k', i') :: rest, k =>
      if k' = k then rest else (k', i') :: mapDelete rest k

/-- Field assignment on the entry object with arena id `i`; a no-op when
`i` is not a live arena id (unreachable from the operations). -/
def upd (arena : List (Entry K V)) (i : Nat) (f : Entry K V → Entry K V) :
    List (Entry K V) :=
  match arena[i]? with
  | some e => arena.set i (f e)
  | none => arena

namespace LRUMap

/-- `new LRUMap(limit)` with no initial entries: lines 46–53. -/
def mk0 (limit : Nat) : LRUMap K V :=
  { size := 0, limit := limit, oldest := none, newest := none,
    keymap := [], arena := [] }

/-- The loop of `assign` (lines 69–83).  `fuel` is the local `limit`
variable (`none` for `Number.MAX_VALUE`, see the header comment);
`prevId` is the local `entry` variable.  Returns the state when the loop
finishes or throws, and whether it threw. -/
def assignLoop [DecidableEq K] :
    Option Nat → Option Nat → LRUMap K V → List (K × V) →
    LRUMap K V × Bool
  | prevId, _, c, [] =>
      -- lines 84–85: this.newest = entry; this.size = this.keymap.size
      ({ c with newest := prevId, size := c.keymap.length }, false)
  | prevId, fuel, c, (k, v) :: rest =>
      let eid := c.arena.length
      let e : Entry K V := ⟨k, v, none, none⟩
      let keymap1 := mapSet c.keymap k eid
      -- lines 73–78: link the fresh entry after the previous one
      let arena1 :=
        match prevId with
        | none => c.arena ++ [e]
        | some p =>
            upd c.arena p (fun ep => { ep with newer := some eid }) ++
              [{ e with older := some p }]
      let oldest1 := match prevId with | none => some eid | some _ => c.oldest
      let c1 : LRUMap K V :=
        { c with keymap := keymap1, arena := arena1, oldest := oldest1 }
      -- lines 80–82: if (limit-- === 0) throw new Error('overflow')
      match fuel with
      | some 0 => (c1, true)
      | some (m + 1) => assignLoop (some eid) (some m) c1 rest
      | none => assignLoop (some eid) none c1 rest

/-- `assign(entries)` (lines 65–86).  The `Bool` is `true` when the
TypeScript code throws the `'overflow'` error; the returned state is then
the state at the throw point. -/
def assign [DecidableEq K] (c : LRUMap K V) (entries : List (K × V)) :
    LRUMap K V × Bool :=
  let fuel : Option Nat := if c.limit = 0 then none else some c.limit
  assignLoop none fuel { c with keymap := [] } entries

/-- `new LRUMap(limit, entries)` (lines 46–61): construct, `assign`, and
if the limit was below 1 fix it to the resulting size.  A thrown
`assign` propagates out of the constructor (`Bool` result `true`). -/
def construct [DecidableEq K] (limit : Nat) (entries : List (K × V)) :
    LRUMap K V × Bool :=
  let r := assign (mk0 limit) entries
  if r.2 then r
  else if r.1.limit < 1 then ({ r.1 with limit := r.1.size }, false)
  else r

/-- `_markEntryAsUsed(entry)` (lines 275–299) for the entry with arena
id `i`. -/
def _markEntryAsUsed (c : LRUMap K V) (i : Nat) : LRUMap K V :=
  if c.newest = some i then c
  else
    match c.arena[i]? with
    | none => c
    | some e =>
      -- lines 284–289
      let oldest1 :=
        match e.newer with
        | some _ => if c.oldest = some i then e.newer else c.oldest
        | none => c.oldest
      let arena1 :=
        match e.newer with
        | some n => upd c.arena n (fun en => { en with older := e.older })
        | none => c.arena
      -- lines 290–292 (the reads happen after the line-288 write)
      let links1 :=
        match arena1[i]? with
        | some e1 => (e1.newer, e1.older)
        | none => (none, none)
      let arena2 :=
        match links1.2 with
        | some o => upd arena1 o (fun eo => { eo with newer := links1.1 })
        | none => arena1
      -- lines 293–294
      let arena3 := upd arena2 i
        (fun e2 => { e2 with newer := none, older := c.newest })
      -- lines 295–297
      let arena4 :=
        match c.newest with
        | some m => upd arena3 m (fun em => { em with newer := some i })
        | none => arena3
      { c with oldest := oldest1, newest := some i, arena := arena4 }

/-- `get(key)` (lines 90–100): the state after the call and the returned
value. -/
def get [DecidableEq K] (c : LRUMap K V) (k : K) : LRUMap K V × Option V :=
  match mapGet c.keymap k with
  | none => (c, none)
  | some i =>
      let c1 := _markEntryAsUsed c i
      match c1.arena[i]? with
      | some e => (c1, some e.value)
      | none => (c1, none)

/-- `shift()` (lines 139–159): the state after the call and the removed
`[key, value]` pair, if any. -/
def shift [DecidableEq K] (c : LRUMap K V) : LRUMap K V × Option (K × V) :=
  match c.oldest with
  | none => (c, none)
  | some i =>
      match c.arena[i]? with
      | none => (c, none)
      | some e =>
          -- lines 143–151
          let st :=
            match e.newer with
            | some n =>
                (some n, c.newest,
                  upd c.arena n (fun en => { en with older := none }))
            | none => (none, none, c.arena)
          -- line 154: entry[NEWER] = entry[OLDER] = undefined
          let arena2 := upd st.2.2 i
            (fun e2 => { e2 with newer := none, older := none })
          ({ c with
              oldest := st.1, newest := st.2.1,
              keymap := mapDelete c.keymap e.key,
              arena := arena2, size := c.size - 1 },
            some (e.key, e.value))

/-- `set(key, value)` (lines 104–135). -/
def set [DecidableEq K] (c : LRUMap K V) (k : K) (v : V) : LRUMap K V :=
  match mapGet c.keymap k with
  | some i =>
      -- lines 107–112: update existing
      let c1 : LRUMap K V :=
        { c with arena := upd c.arena i (fun e => { e with value := v }) }
      _markEntryAsUsed c1 i
  | none =>
      -- lines 114–128: new entry
      let eid := c.arena.length
      let e : Entry K V := ⟨k, v, none, none⟩
      let st :=
        match c.newest with
        | some m =>
            (upd c.arena m (fun em => { em with newer := some eid }) ++
              [{ e with older := c.newest }], c.oldest)
        | none => (c.arena ++ [e], some eid)
      let c1 : LRUMap K V :=
        { c with
            keymap := mapSet c.keymap k eid, arena := st.1,
            oldest := st.2, newest := some eid, size := c.size + 1 }
      -- lines 129–132
      if c1.size > c1.limit then (c1.shift).1 else c1

/-- `has(key)` (lines 166–168). -/
def has [DecidableEq K] (c : LRUMap K V) (k : K) : Bool :=
  (mapGet c.keymap k).isSome

/-- `find(key)` (lines 173–176): peek without touching recency. -/
def find [DecidableEq K] (c : LRUMap K V) (k : K) : Option V :=
  match mapGet c.keymap k with
  | some i => (c.arena[i]?).map Entry.value
  | none => none

/-- `delete(key)` (lines 180–207): the state after the call and the
removed value, if any. -/
def delete [DecidableEq K] (c : LRUMap K V) (k : K) :
    LRUMap K V × Option V :=
  match mapGet c.keymap k with
  | none => (c, none)
  | some i =>
      match c.arena[i]? with
      | none => (c, none)
      | some e =>
          let keymap1 := mapDelete c.keymap e.key
          -- lines 186–203
          let st :=
            match e.newer, e.older with
            | some n, some o =>
                (upd (upd c.arena o (fun eo => { eo with newer := some n }))
                    n (fun en => { en with older := some o }),
                  c.oldest, c.newest)
            | some n, none =>
                (upd c.arena n (fun en => { en with older := none }),
                  some n, c.newest)
            | none, some o =>
                (upd c.arena o (fun eo => { eo with newer := none }),
                  c.oldest, some o)
            | none, none => (c.arena, none, none)
          ({ c with
              keymap := keymap1, arena := st.1, oldest := st.2.1,
              newest := st.2.2, size := c.size - 1 },
            some e.value)

/-- `clear()` (lines 210–215): links in the arena are deliberately not
cleared, matching the source comment. -/
def clear (c : LRUMap K V) : LRUMap K V :=
  { c with oldest := none, newest := none, size := 0, keymap := [] }

/-- Follow `newer` links from a starting reference, as the iterators,
`forEach`, `toJSON` and `toString` do (fuel-bounded for termination; the
fuel is ample on every state whose links form a chain). -/
def chainFrom (arena : List (Entry K V)) : Nat → Option Nat → List Nat
  | 0, _ => []
  | _, none => []
  | fuel + 1, some i =>
      match arena[i]? with
      | none => []
      | some e => i :: chainFrom arena fuel e.newer

/-- The keys oldest-to-newest, as `keys()` yields them. -/
def keyList (c : LRUMap K V) : List K :=
  (chainFrom c.arena (c.arena.length + 1) c.oldest).filterMap
    fun i => (c.arena[i]?).map Entry.key

/-- The `[key, value]` pairs oldest-to-newest, as the entry iterator and
`toJSON` yield them. -/
def entryList (c : LRUMap K V) : List (K × V) :=
  (chainFrom c.arena (c.arena.length + 1) c.oldest).filterMap
    fun i => (c.arena[i]?).map fun e => (e.key, e.value)

end LRUMap

/-! ## The structural invariant

A cache state is well formed when there is a list `ids` of arena ids —
the recency sequence, oldest first — such that the `older`/`newer` links
thread exactly through `ids`, the endpoints match, `size` is its length
and the key index holds exactly the entries of `ids`.  The two link
directions are kept as separate predicates (`olderChain`, `newerChain`)
because every pointer assignment in the source touches one direction of
one entry. -/

/-- The id the first entry of `ids` is reached from; `next` if `ids` is
empty. -/
def front (ids : List Nat) (next : Option Nat) : Option Nat :=
  match ids with
  | [] => next
  | j :: _ => some j

/-- The id of the last entry of `ids`; `prev` if `ids` is empty. -/
def back (prev : Option Nat) (ids : List Nat) : Option Nat :=
  match ids.getLast? with
  | none => prev
  | some j => some j

/-- The `newer` links thread forward through `ids` and then reach
`next`. -/
def newerChain (arena : List (Entry K V)) : List Nat → Option Nat → Prop
  | [], _ => True
  | i :: rest, next =>
      ∃ e, arena[i]? = some e ∧ e.newer = front rest next ∧
        newerChain arena rest next

/-- The `older` links thread backward through `ids`, the first entry
pointing at `prev`. -/
def olderChain (arena : List (Entry K V)) : Option Nat → List Nat → Prop
  | _, [] => True
  | prev, i :: rest =>
      ∃ e, arena[i]? = some e ∧ e.older = prev ∧
        olderChain arena (some i) rest

/-- Well-formedness of a cache state, witnessed by its recency sequence
`ids` (oldest to newest).  This packages the spec's structural
invariant: index and sequence hold the same entries, the `newer` chain
from `oldest` visits every entry once and ends at `newest` (symmetrically
for `older`), `size` equals the chain length and the index size, and the
endpoints are unset exactly on the empty cache. -/
structure Valid (c : LRUMap K V) (ids : List Nat) : Prop where
  older_chain : olderChain c.arena none ids
  newer_chain : newerChain c.arena ids none
  oldest_eq : c.oldest = ids.head?
  newest_eq : c.newest = ids.getLast?
  size_eq : c.size = ids.length
  nodup : ids.Nodup
  km_snd : (c.keymap.map Prod.snd).Perm ids
  km_fst : (c.keymap.map Prod.fst).Nodup
  km_get : ∀ p ∈ c.keymap, ∃ e, c.arena[p.2]? = some e ∧ e.key = p.1

/-! ### `front`/`back` -/

@[simp] theorem front_nil (next : Option Nat) : front [] next = next := rfl

@[simp] theorem front_cons (j : Nat) (ids : List Nat) (next : Option Nat) :
    front (j :: ids) next = some j := rfl

@[simp] theorem back_nil (prev : Option Nat) : back prev [] = prev := rfl

theorem back_cons (prev : Option Nat) (x : Nat) (ids : List Nat) :
    back prev (x :: ids) = back (some x) ids := by
  cases ids with
  | nil => rfl
  | cons y ys =>
    cases h : (y :: ys).getLast? with
    | none => exact absurd (List.getLast?_eq_none_iff.mp h) (by simp)
    | some j => simp [back, List.getLast?_cons_cons, h]

@[simp] theorem back_concat (prev : Option Nat) (ids : List Nat) (j : Nat) :
    back prev (ids ++ [j]) = some j := by
  simp [back, List.getLast?_concat]

theorem front_append (xs ys : List Nat) (next : Option Nat) :
    front (xs ++ ys) next = front xs (front ys next) := by
  cases xs <;> rfl

/-! ### Arena reads and writes -/

theorem lt_length_of_getElem? {arena : List (Entry K V)} {i : Nat}
    {e : Entry K V} (h : arena[i]? = some e) : i < arena.length :=
  (List.getElem?_eq_some.mp h).1

@[simp] theorem length_upd (arena : List (Entry K V)) (j : Nat)
    (f : Entry K V → Entry K V) : (upd arena j f).length = arena.length := by
  unfold upd
  cases h : arena[j]? <;> simp

theorem getElem?_upd_ne (arena : List (Entry K V)) (j : Nat)
    (f : Entry K V → Entry K V) {i : Nat} (h : i ≠ j) :
    (upd arena j f)[i]? = arena[i]? := by
  unfold upd
  cases hj : arena[j]? with
  | none => rfl
  | some e => exact List.getElem?_set_ne (Ne.symm h)

theorem getElem?_upd_self {arena : List (Entry K V)} {j : Nat}
    (f : Entry K V → Entry K V) {e : Entry K V} (h : arena[j]? = some e) :
    (upd arena j f)[j]? = some (f e) := by
  unfold upd
  rw [h]
  exact List.getElem?_set_eq_of_lt (f e) (lt_length_of_getElem? h)

theorem upd_of_getElem?_none {arena : List (Entry K V)} {j : Nat}
    (f : Entry K V → Entry K V) (h : arena[j]? = none) :
    upd arena j f = arena := by
  unfold upd
  rw [h]

theorem getElem?_append_lt {arena : List (Entry K V)} {i : Nat}
    (e : Entry K V) (h : i < arena.length) :
    (arena ++ [e])[i]? = arena[i]? :=
  List.getElem?_append_left h

@[simp] theorem getElem?_append_len (arena : List (Entry K V))
    (e : Entry K V) : (arena ++ [e])[arena.length]? = some e :=
  List.getElem?_concat_length arena e

/-! ### Chain lemmas -/

@[simp] theorem newerChain_nil (arena : List (Entry K V)) (next : Option Nat) :
    newerChain arena [] next := trivial

@[simp] theorem olderChain_nil (arena : List (Entry K V)) (prev : Option Nat) :
    olderChain arena prev [] := trivial

theorem newerChain_cons {arena : List (Entry K V)} {i : Nat}
    {rest : List Nat} {next : Option Nat} :
    newerChain arena (i :: rest) next ↔
      ∃ e, arena[i]? = some e ∧ e.newer = front rest next ∧
        newerChain arena rest next := Iff.rfl

theorem olderChain_cons {arena : List (Entry K V)} {prev : Option Nat}
    {i : Nat} {rest : List Nat} :
    olderChain arena prev (i :: rest) ↔
      ∃ e, arena[i]? = some e ∧ e.older = prev ∧
        olderChain arena (some i) rest := Iff.rfl

theorem newerChain_singleton {arena : List (Entry K V)} {i : Nat}
    {next : Option Nat} :
    newerChain arena [i] next ↔ ∃ e, arena[i]? = some e ∧ e.newer = next := by
  constructor
  · rintro ⟨e, he, hn, -⟩; exact ⟨e, he, hn⟩
  · rintro ⟨e, he, hn⟩; exact ⟨e, he, hn, trivial⟩

theorem olderChain_singleton {arena : List (Entry K V)} {prev : Option Nat}
    {i : Nat} :
    olderChain arena prev [i] ↔ ∃ e, arena[i]? = some e ∧ e.older = prev := by
  constructor
  · rintro ⟨e, he, ho, -⟩; exact ⟨e, he, ho⟩
  · rintro ⟨e, he, ho⟩; exact ⟨e, he, ho, trivial⟩

theorem newerChain_append {arena : List (Entry K V)} {xs ys : List Nat}
    {next : Option Nat} :
    newerChain arena (xs ++ ys) next ↔
      newerChain arena xs (front ys next) ∧ newerChain arena ys next := by
  induction xs with
  | nil => simp
  | cons x xs ih =>
    simp only [List.cons_append, newerChain_cons, front_append, ih]
    constructor
    · rintro ⟨e, he, hn, h1, h2⟩; exact ⟨⟨e, he, hn, h1⟩, h2⟩
    · rintro ⟨⟨e, he, hn, h1⟩, h2⟩; exact ⟨e, he, hn, h1, h2⟩

theorem olderChain_append {arena : List (Entry K V)} {prev : Option Nat}
    {xs ys : List Nat} :
    olderChain arena prev (xs ++ ys) ↔
      olderChain arena prev xs ∧ olderChain arena (back prev xs) ys := by
  induction xs generalizing prev with
  | nil => simp
  | cons x xs ih =>
    simp only [List.cons_append, olderChain_cons, back_cons, ih]
    constructor
    · rintro ⟨e, he, ho, h1, h2⟩; exact ⟨⟨e, he, ho, h1⟩, h2⟩
    · rintro ⟨⟨e, he, ho, h1⟩, h2⟩; exact ⟨e, he, ho, h1, h2⟩

theorem newerChain_ext {arena arena' : List (Entry K V)} {ids : List Nat}
    {next : Option Nat}
    (h : ∀ m ∈ ids, (arena'[m]?).map Entry.newer = (arena[m]?).map Entry.newer)
    (hc : newerChain arena ids next) : newerChain arena' ids next := by
  induction ids with
  | nil => trivial
  | cons i rest ih =>
    obtain ⟨e, he, hn, htl⟩ := hc
    have hm := h i (List.mem_cons_self i rest)
    rw [he] at hm
    simp only [Option.map_some'] at hm
    obtain ⟨e', he', hkey⟩ := Option.map_eq_some'.mp hm
    exact ⟨e', he', hkey.trans hn,
      ih (fun m hmem => h m (List.mem_cons_of_mem _ hmem)) htl⟩

theorem olderChain_ext {arena arena' : List (Entry K V)} {prev : Option Nat}
    {ids : List Nat}
    (h : ∀ m ∈ ids, (arena'[m]?).map Entry.older = (arena[m]?).map Entry.older)
    (hc : olderChain arena prev ids) : olderChain arena' prev ids := by
  induction ids generalizing prev with
  | nil => trivial
  | cons i rest ih =>
    obtain ⟨e, he, ho, htl⟩ := hc
    have hm := h i (List.mem_cons_self i rest)
    rw [he] at hm
    simp only [Option.map_some'] at hm
    obtain ⟨e', he', hkey⟩ := Option.map_eq_some'.mp hm
    exact ⟨e', he', hkey.trans ho,
      ih (fun m hmem => h m (List.mem_cons_of_mem _ hmem)) htl⟩

theorem newerChain_mem {arena : List (Entry K V)} {ids : List Nat}
    {next : Option Nat} (hc : newerChain arena ids next) :
    ∀ m ∈ ids, ∃ e, arena[m]? = some e := by
  induction ids with
  | nil => intro m hm; cases hm
  | cons i rest ih =>
    obtain ⟨e, he, -, htl⟩ := hc
    intro m hm
    rcases List.mem_cons.mp hm with rfl | hm
    · exact ⟨e, he⟩
    · exact ih htl m hm

theorem newerChain_mem_lt {arena : List (Entry K V)} {ids : List Nat}
    {next : Option Nat} (hc : newerChain arena ids next) :
    ∀ m ∈ ids, m < arena.length := by
  intro m hm
  obtain ⟨e, he⟩ := newerChain_mem hc m hm
  exact lt_length_of_getElem? he

/-! ### Field-projection agreement under arena edits -/

theorem getElem?_map_upd {α : Type _} (arena : List (Entry K V)) (j : Nat)
    (f : Entry K V → Entry K V) (F : Entry K V → α)
    (hf : ∀ e, F (f e) = F e) (m : Nat) :
    ((upd arena j f)[m]?).map F = (arena[m]?).map F := by
  rcases eq_or_ne m j with rfl | hne
  · cases hj : arena[m]? with
    | none => rw [upd_of_getElem?_none f hj, hj]
    | some e =>
      rw [getElem?_upd_self f hj]
      simp [hf]
  · rw [getElem?_upd_ne _ _ _ hne]

theorem getElem?_map_append {α : Type _} {arena : List (Entry K V)}
    (e : Entry K V) (F : Entry K V → α) {m : Nat} (h : m < arena.length) :
    ((arena ++ [e])[m]?).map F = (arena[m]?).map F := by
  rw [getElem?_append_lt e h]

/-! ### Association-list (keymap) lemmas -/

theorem mapGet_eq_none_iff [DecidableEq K] {m : List (K × Nat)} {k : K} :
    mapGet m k = none ↔ k ∉ m.map Prod.fst := by
  induction m with
  | nil => simp [mapGet]
  | cons p rest ih =>
    obtain ⟨k', i⟩ := p
    by_cases h : k' = k
    · subst h; simp [mapGet]
    · simp only [mapGet, if_neg h, List.map_cons, List.mem_cons]
      constructor
      · intro hn
        rintro (rfl | hm)
        · exact h rfl
        · exact (ih.mp hn) hm
      · intro hn
        exact ih.mpr fun hm => hn (Or.inr hm)

theorem mapGet_mem [DecidableEq K] {m : List (K × Nat)} {k : K} {i : Nat}
    (h : mapGet m k = some i) : (k, i) ∈ m := by
  induction m with
  | nil => simp [mapGet] at h
  | cons p rest ih =>
    obtain ⟨k', i'⟩ := p
    by_cases hk : k' = k
    · subst hk
      simp [mapGet] at h
      simp [h]
    · simp [mapGet, hk] at h
      exact List.mem_cons_of_mem _ (ih h)

theorem mapGet_of_mem [DecidableEq K] {m : List (K × Nat)} {k : K} {i : Nat}
    (hnd : (m.map Prod.fst).Nodup) (h : (k, i) ∈ m) : mapGet m k = some i := by
  induction m with
  | nil => cases h
  | cons p rest ih =>
    obtain ⟨k', i'⟩ := p
    simp only [List.map_cons, List.nodup_cons] at hnd
    rcases List.mem_cons.mp h with heq | hmem
    · injection heq with h1 h2
      subst h1; subst h2
      simp [mapGet]
    · have hk : k' ≠ k := by
        rintro rfl
        exact hnd.1 (List.mem_map.mpr ⟨(k', i), hmem, rfl⟩)
      simp [mapGet, hk]
      exact ih hnd.2 hmem

theorem mapSet_absent [DecidableEq K] {m : List (K × Nat)} {k : K}
    (i : Nat) (h : mapGet m k = none) : mapSet m k i = m ++ [(k, i)] := by
  induction m with
  | nil => rfl
  | cons p rest ih =>
    obtain ⟨k', i'⟩ := p
    by_cases hk : k' = k
    · subst hk; simp [mapGet] at h
    · simp [mapGet, hk] at h
      simp [mapSet, hk, ih h]

theorem mapDelete_sublist [DecidableEq K] (m : List (K × Nat)) (k : K) :
    (mapDelete m k).Sublist m := by
  induction m with
  | nil => exact List.Sublist.refl _
  | cons p rest ih =>
    obtain ⟨k', i'⟩ := p
    by_cases hk : k' = k
    · simp only [mapDelete, if_pos hk]
      exact (List.Sublist.refl _).cons _
    · simp only [mapDelete, if_neg hk]
      exact ih.cons₂ _

theorem mapDelete_perm [DecidableEq K] {m : List (K × Nat)} {k : K} {i : Nat}
    (h : mapGet m k = some i) : m.Perm ((k, i) :: mapDelete m k) := by
  induction m with
  | nil => simp [mapGet] at h
  | cons p rest ih =>
    obtain ⟨k', i'⟩ := p
    by_cases hk : k' = k
    · subst hk
      simp [mapGet] at h
      subst h
      simp [mapDelete]
    · simp [mapGet, hk] at h
      simp only [mapDelete, if_neg hk]
      exact ((ih h).cons _).trans (List.Perm.swap _ _ _)

theorem mapGet_mapDelete_self [DecidableEq K] {m : List (K × Nat)} {k : K}
    (hnd : (m.map Prod.fst).Nodup) : mapGet (mapDelete m k) k = none := by
  induction m with
  | nil => rfl
  | cons p rest ih =>
    obtain ⟨k', i'⟩ := p
    simp only [List.map_cons, List.nodup_cons] at hnd
    by_cases hk : k' = k
    · subst hk
      simp only [mapDelete, if_pos rfl]
      exact mapGet_eq_none_iff.mpr fun hmem => hnd.1 hmem
    · simp only [mapDelete, if_neg hk, mapGet, if_neg hk]
      exact ih hnd.2

/-! ### Which writes touch which link direction

Every pointer assignment in the source writes one field of one entry;
these record that a write to `older` is invisible to the `newer` chain
and vice versa, and that no link write touches key or value. -/

theorem map_newer_upd_older (a : List (Entry K V)) (j m : Nat)
    (x : Option Nat) :
    ((upd a j fun e => { e with older := x })[m]?).map Entry.newer =
      (a[m]?).map Entry.newer :=
  getElem?_map_upd a j (fun e => { e with older := x }) (Entry.newer) (fun _ => rfl) m

theorem map_older_upd_newer (a : List (Entry K V)) (j m : Nat)
    (x : Option Nat) :
    ((upd a j fun e => { e with newer := x })[m]?).map Entry.older =
      (a[m]?).map Entry.older :=
  getElem?_map_upd a j (fun e => { e with newer := x }) (Entry.older) (fun _ => rfl) m

theorem map_kv_upd_older (a : List (Entry K V)) (j m : Nat) (x : Option Nat) :
    ((upd a j fun e => { e with older := x })[m]?).map
        (fun e => (e.key, e.value)) =
      (a[m]?).map fun e => (e.key, e.value) :=
  getElem?_map_upd a j (fun e => { e with older := x }) (fun e => (e.key, e.value)) (fun _ => rfl) m

theorem map_kv_upd_newer (a : List (Entry K V)) (j m : Nat) (x : Option Nat) :
    ((upd a j fun e => { e with newer := x })[m]?).map
        (fun e => (e.key, e.value)) =
      (a[m]?).map fun e => (e.key, e.value) :=
  getElem?_map_upd a j (fun e => { e with newer := x }) (fun e => (e.key, e.value)) (fun _ => rfl) m

theorem map_kv_upd_both (a : List (Entry K V)) (j m : Nat)
    (x y : Option Nat) :
    ((upd a j fun e => { e with newer := x, older := y })[m]?).map
        (fun e => (e.key, e.value)) =
      (a[m]?).map fun e => (e.key, e.value) :=
  getElem?_map_upd a j (fun e => { e with newer := x, older := y }) (fun e => (e.key, e.value)) (fun _ => rfl) m

theorem map_key_upd_value (a : List (Entry K V)) (j m : Nat) (v : V) :
    ((upd a j fun e => { e with value := v })[m]?).map Entry.key =
      (a[m]?).map Entry.key :=
  getElem?_map_upd a j (fun e => { e with value := v }) (Entry.key) (fun _ => rfl) m

theorem map_newer_upd_value (a : List (Entry K V)) (j m : Nat) (v : V) :
    ((upd a j fun e => { e with value := v })[m]?).map Entry.newer =
      (a[m]?).map Entry.newer :=
  getElem?_map_upd a j (fun e => { e with value := v }) (Entry.newer) (fun _ => rfl) m

theorem map_older_upd_value (a : List (Entry K V)) (j m : Nat) (v : V) :
    ((upd a j fun e => { e with value := v })[m]?).map Entry.older =
      (a[m]?).map Entry.older :=
  getElem?_map_upd a j (fun e => { e with value := v }) (Entry.older) (fun _ => rfl) m

theorem map_eq_extract {α : Type _} {β : Type _} {o1 o2 : Option α}
    {F : α → β} (h : o1.map F = o2.map F) {e : α} (h2 : o2 = some e) :
    ∃ a, o1 = some a ∧ F a = F e := by
  subst h2
  cases o1 with
  | none => simp at h
  | some a => exact ⟨a, rfl, by simpa using h⟩

namespace LRUMap

theorem markUsed_keymap (c : LRUMap K V) (i : Nat) :
    (_markEntryAsUsed c i).keymap = c.keymap := by
  unfold _markEntryAsUsed
  split
  · rfl
  · cases c.arena[i]? <;> rfl

theorem markUsed_size (c : LRUMap K V) (i : Nat) :
    (_markEntryAsUsed c i).size = c.size := by
  unfold _markEntryAsUsed
  split
  · rfl
  · cases c.arena[i]? <;> rfl

theorem markUsed_limit (c : LRUMap K V) (i : Nat) :
    (_markEntryAsUsed c i).limit = c.limit := by
  unfold _markEntryAsUsed
  split
  · rfl
  · cases c.arena[i]? <;> rfl

end LRUMap

/-! ### Splitting a nodup recency sequence -/

theorem nodup_split {xs ys : List Nat} {i : Nat}
    (h : (xs ++ i :: ys).Nodup) :
    xs.Nodup ∧ ys.Nodup ∧ i ∉ xs ∧ i ∉ ys ∧ ∀ a ∈ xs, a ∉ ys := by
  rw [List.nodup_append] at h
  obtain ⟨h1, h2, h3⟩ := h
  rw [List.nodup_cons] at h2
  refine ⟨h1, h2.2, fun hi => h3 hi (List.mem_cons_self i ys), h2.1,
    fun a ha hay => h3 ha (List.mem_cons_of_mem _ hay)⟩

theorem perm_rotate_to_end (xs ys : List Nat) (i : Nat) :
    (xs ++ i :: ys).Perm (xs ++ ys ++ [i]) :=
  List.perm_middle.trans (List.perm_append_singleton i (xs ++ ys)).symm

theorem eq_nil_or_append (l : List Nat) : l = [] ∨ ∃ t a, l = t ++ [a] := by
  rcases List.eq_nil_or_concat l with h | ⟨t, a, h⟩
  · exact Or.inl h
  · exact Or.inr ⟨t, a, by rw [h, List.concat_eq_append]⟩

theorem back_append (prev : Option Nat) (xs ys : List Nat) :
    back prev (xs ++ ys) = back (back prev xs) ys := by
  induction xs generalizing prev with
  | nil => rfl
  | cons x xs ih => rw [List.cons_append, back_cons, back_cons, ih]

namespace LRUMap

/-- Core of the promotion proof: after the pointer surgery of
`_markEntryAsUsed` on a mid-sequence entry `i` (recency sequence
`xs ++ i :: j :: ys'`, old newest `L`), the state is again well formed
with `i` moved to the newest end.  `B` abstracts the arena after the
neighbour writes (lines 284–292 of the source), described only by how it
differs from the original arena, so that both the `i`-was-oldest and the
interior cases reduce to this single lemma. -/
theorem valid_markUsed_core [DecidableEq K] {c : LRUMap K V}
    {xs ys' ws : List Nat} {i j L : Nat} {ei : Entry K V}
    {B : List (Entry K V)} {O : Option Nat}
    (h : Valid c (xs ++ i :: j :: ys'))
    (hws : j :: ys' = ws ++ [L])
    (hO : O = (xs ++ (j :: ys') ++ [i]).head?)
    (hBi : B[i]? = some ei)
    (hBkv : ∀ m : Nat, (B[m]?).map (fun e : Entry K V => (e.key, e.value)) =
      (c.arena[m]?).map fun e : Entry K V => (e.key, e.value))
    (hBnewtail : ∀ m ∈ j :: ys',
      (B[m]?).map Entry.newer = (c.arena[m]?).map Entry.newer)
    (hBoldtail : ∀ m ∈ ys',
      (B[m]?).map Entry.older = (c.arena[m]?).map Entry.older)
    (hBoldj : (B[j]?).map Entry.older = some (back none xs))
    (hBoldxs : ∀ m ∈ xs,
      (B[m]?).map Entry.older = (c.arena[m]?).map Entry.older)
    (hBnewxs : ∀ m ∈ xs, back none xs ≠ some m →
      (B[m]?).map Entry.newer = (c.arena[m]?).map Entry.newer)
    (hBlast : ∀ o, back none xs = some o →
      (B[o]?).map Entry.newer = some (some j)) :
    Valid
      { c with
          oldest := O, newest := some i,
          arena :=
            upd (upd B i fun e2 => { e2 with newer := none, older := some L })
              L fun em => { em with newer := some i } }
      (xs ++ (j :: ys') ++ [i]) := by
  obtain ⟨hoc, hnc, hold, hnew, hsz, hnd, hks, hkf, hkg⟩ := h
  obtain ⟨hndxs, hndtail, hixs, hitail, hdisj⟩ := nodup_split hnd
  have hLtail : L ∈ j :: ys' := by
    rw [hws]; exact List.mem_append_right ws (by simp)
  have hLws : L ∉ ws := by
    have h2 := hndtail
    rw [hws, List.nodup_append] at h2
    exact fun hmem => h2.2.2 hmem (by simp)
  have hwssub : ∀ m ∈ ws, m ∈ j :: ys' := by
    intro m hm; rw [hws]; exact List.mem_append_left _ hm
  have hiL : i ≠ L := fun he => hitail (he ▸ hLtail)
  have hij : i ≠ j := fun he => hitail (he ▸ List.mem_cons_self j ys')
  have hjys' : j ∉ ys' := (List.nodup_cons.mp hndtail).1
  rw [newerChain_append] at hnc
  obtain ⟨hncxs, hnctail⟩ := hnc
  simp only [front_cons] at hncxs
  obtain ⟨ei0, hei0, -, hnctail2⟩ := hnctail
  rw [olderChain_append] at hoc
  obtain ⟨hocxs, hoctail⟩ := hoc
  obtain ⟨ei1, hei1, heiold, hoctail2⟩ := hoctail
  obtain ⟨ej, hej, -, hoc3⟩ := hoctail2
  have hnctailw := hnctail2
  rw [hws, newerChain_append] at hnctailw
  obtain ⟨hncws, hncL⟩ := hnctailw
  obtain ⟨eL, heL, -⟩ := newerChain_singleton.mp hncL
  set A3 := upd B i (fun e2 => { e2 with newer := none, older := some L })
    with hA3
  set A4 := upd A3 L (fun em => { em with newer := some i }) with hA4
  have hA4i : A4[i]? = some { ei with newer := none, older := some L } := by
    rw [hA4, getElem?_upd_ne _ _ _ hiL, hA3, getElem?_upd_self _ hBi]
  have hA4old : ∀ m : Nat,
      (A4[m]?).map Entry.older = (A3[m]?).map Entry.older := by
    intro m; rw [hA4]; exact map_older_upd_newer A3 L m (some i)
  have hA3ne : ∀ m : Nat, m ≠ i → A3[m]? = B[m]? := fun m hm => by
    rw [hA3]; exact getElem?_upd_ne _ _ _ hm
  have hA4ne : ∀ m : Nat, m ≠ L → A4[m]? = A3[m]? := fun m hm => by
    rw [hA4]; exact getElem?_upd_ne _ _ _ hm
  have hA4kv : ∀ m : Nat,
      (A4[m]?).map (fun e : Entry K V => (e.key, e.value)) =
      (c.arena[m]?).map fun e : Entry K V => (e.key, e.value) := by
    intro m
    rw [hA4, map_kv_upd_newer, hA3, map_kv_upd_both, hBkv]
  have hA4newws : ∀ m ∈ ws,
      (A4[m]?).map Entry.newer = (c.arena[m]?).map Entry.newer := by
    intro m hm
    have hmL : m ≠ L := fun he => hLws (he ▸ hm)
    have hmi : m ≠ i := fun he => hitail (he ▸ hwssub m hm)
    rw [hA4ne m hmL, hA3ne m hmi, hBnewtail m (hwssub m hm)]
  refine ⟨?_, ?_, ?_, ?_, ?_, ?_, ?_, ?_, ?_⟩
  · -- older chain
    show olderChain A4 none (xs ++ (j :: ys') ++ [i])
    rw [olderChain_append]
    constructor
    · rw [olderChain_append]
      constructor
      · refine olderChain_ext (fun m hm => ?_) hocxs
        have hmi : m ≠ i := fun he => hixs (he ▸ hm)
        rw [hA4old m, hA3ne m hmi, hBoldxs m hm]
      · have hj4 : (A4[j]?).map Entry.older = some (back none xs) := by
          rw [hA4old j, hA3ne j (Ne.symm hij), hBoldj]
        obtain ⟨ej4, hej4, hej4old⟩ := Option.map_eq_some'.mp hj4
        refine ⟨ej4, hej4, hej4old, ?_⟩
        refine olderChain_ext (fun m hm => ?_) hoc3
        have hmi : m ≠ i := fun he => hitail (he ▸ List.mem_cons_of_mem j hm)
        rw [hA4old m, hA3ne m hmi, hBoldtail m hm]
    · have hb2 : back none (xs ++ (j :: ys')) = some L := by
        rw [back_append, hws]
        exact back_concat _ ws L
      rw [hb2]
      exact olderChain_singleton.mpr ⟨_, hA4i, rfl⟩
  · -- newer chain
    show newerChain A4 (xs ++ (j :: ys') ++ [i]) none
    rw [newerChain_append]
    constructor
    · rw [newerChain_append]
      constructor
      · show newerChain A4 xs (some j)
        rcases eq_nil_or_append xs with rfl | ⟨zs, o, rfl⟩
        · trivial
        · have hozs : o ∉ zs := by
            rw [List.nodup_append] at hndxs
            exact fun hmem => hndxs.2.2 hmem (by simp)
          have hoxs : o ∈ zs ++ [o] := List.mem_append_right _ (by simp)
          have hbk : back none (zs ++ [o]) = some o := back_concat _ zs o
          rw [newerChain_append]
          rw [newerChain_append] at hncxs
          constructor
          · show newerChain A4 zs (some o)
            refine newerChain_ext (fun m hm => ?_) hncxs.1
            have hmL : m ≠ L := fun he =>
              hdisj m (List.mem_append_left _ hm) (by rw [he]; exact hLtail)
            have hmi : m ≠ i :=
              fun he => hixs (he ▸ List.mem_append_left _ hm)
            have hmo : back none (zs ++ [o]) ≠ some m := by
              rw [hbk]
              intro he
              exact hozs ((Option.some.inj he) ▸ hm)
            rw [hA4ne m hmL, hA3ne m hmi,
              hBnewxs m (List.mem_append_left _ hm) hmo]
          · have hoL : o ≠ L := fun he =>
              hdisj o hoxs (by rw [he]; exact hLtail)
            have hoi : o ≠ i := fun he => hixs (he ▸ hoxs)
            have ho4 : (A4[o]?).map Entry.newer = some (some j) := by
              rw [hA4ne o hoL, hA3ne o hoi, hBlast o hbk]
            obtain ⟨eo4, heo4, heo4new⟩ := Option.map_eq_some'.mp ho4
            exact newerChain_singleton.mpr ⟨eo4, heo4, heo4new⟩
      · show newerChain A4 (j :: ys') (some i)
        rw [hws, newerChain_append]
        constructor
        · exact newerChain_ext (fun m hm => hA4newws m hm) hncws
        · have hL3 : A3[L]? = B[L]? := hA3ne L (Ne.symm hiL)
          have hBLex : ∃ eB, B[L]? = some eB := by
            have hmap := hBnewtail L hLtail
            rw [heL] at hmap
            obtain ⟨eB, hB, -⟩ := Option.map_eq_some'.mp hmap
            exact ⟨eB, hB⟩
          obtain ⟨eB, hBL⟩ := hBLex
          have hA4L : A4[L]? = some { eB with newer := some i } := by
            rw [hA4, getElem?_upd_self _ (hL3.trans hBL)]
          exact newerChain_singleton.mpr ⟨_, hA4L, rfl⟩
    · exact newerChain_singleton.mpr ⟨_, hA4i, rfl⟩
  · exact hO
  · show (some i : Option Nat) = ((xs ++ (j :: ys')) ++ [i]).getLast?
    rw [List.getLast?_concat]
  · exact hsz.trans (perm_rotate_to_end xs (j :: ys') i).length_eq
  · exact (perm_rotate_to_end xs (j :: ys') i).nodup hnd
  · exact hks.trans (perm_rotate_to_end xs (j :: ys') i)
  · exact hkf
  · intro p hp
    obtain ⟨e, hpe, hkey⟩ := hkg p hp
    have hkv := hA4kv p.2
    rw [hpe] at hkv
    obtain ⟨e4, he4, hkveq⟩ := Option.map_eq_some'.mp hkv
    refine ⟨e4, he4, ?_⟩
    have hk4 : e4.key = e.key := congrArg Prod.fst hkveq
    rw [hk4, hkey]

end LRUMap

namespace LRUMap

/-- `_markEntryAsUsed` moves the touched entry to the newest end of the
recency sequence and preserves well-formedness. -/
theorem valid_markUsed [DecidableEq K] {c : LRUMap K V} {xs ys : List Nat}
    {i : Nat} (h : Valid c (xs ++ i :: ys)) :
    Valid (_markEntryAsUsed c i) (xs ++ ys ++ [i]) := by
  rcases ys with _ | ⟨j, ys'⟩
  · -- the entry is already the newest: the function is a no-op
    have hni : c.newest = some i := by
      rw [h.newest_eq, List.getLast?_concat]
    unfold _markEntryAsUsed
    rw [if_pos hni]
    simpa using h
  · obtain ⟨-, -, hixs, hitail, hdisj⟩ := nodup_split h.nodup
    have hij : i ≠ j := fun he => hitail (he ▸ List.mem_cons_self j ys')
    have hnc := h.newer_chain
    rw [newerChain_append] at hnc
    obtain ⟨hncxs, hnci⟩ := hnc
    obtain ⟨ei, hei, heinew, -⟩ := hnci
    simp only [front_cons] at heinew
    have hoc := h.older_chain
    rw [olderChain_append] at hoc
    obtain ⟨-, hoci⟩ := hoc
    obtain ⟨ei1, hei1, heiold1, hoc2⟩ := hoci
    rw [hei] at hei1
    have heiold : ei.older = back none xs := by
      cases Option.some.inj hei1; exact heiold1
    obtain ⟨ej, hej, -, -⟩ := hoc2
    obtain ⟨ws, L, hws⟩ : ∃ ws L, j :: ys' = ws ++ [L] := by
      rcases eq_nil_or_append (j :: ys') with habs | ⟨ws, L, hwl⟩
      · cases habs
      · exact ⟨ws, L, hwl⟩
    have hLtail : L ∈ j :: ys' := by
      rw [hws]; exact List.mem_append_right ws (by simp)
    have hnewest : c.newest = some L := by
      rw [h.newest_eq, List.getLast?_append_cons, List.getLast?_cons_cons,
        hws, List.getLast?_concat]
    have hne : ¬ (some L = some i) := fun he =>
      hitail ((Option.some.inj he) ▸ hLtail)
    have hA1i :
        (upd c.arena j fun en => { en with older := ei.older })[i]? =
          some ei := by
      rw [getElem?_upd_ne _ _ _ hij]; exact hei
    simp only [_markEntryAsUsed, hnewest, if_neg hne, hei, heinew, hA1i]
    rcases hcase : ei.older with _ | o
    · -- the touched entry was the oldest (no `older` neighbour)
      simp only [hcase]
      have hb : back none xs = none := by rw [← heiold, hcase]
      have hxsnil : xs = [] := by
        rcases eq_nil_or_append xs with rfl | ⟨t, a, rfl⟩
        · rfl
        · rw [back_concat] at hb; cases hb
      subst hxsnil
      have hO : (if c.oldest = some i then some j else c.oldest) =
          ((([] : List Nat) ++ (j :: ys')) ++ [i]).head? := by
        have hold : c.oldest = some i := by
          rw [h.oldest_eq]; rfl
        rw [if_pos hold]; rfl
      have hBi : (upd c.arena j fun en => { en with older := none })[i]? =
          some ei := by
        rw [getElem?_upd_ne _ _ _ hij]; exact hei
      refine valid_markUsed_core h hws hO hBi ?_ ?_ ?_ ?_ ?_ ?_ ?_
      · exact fun m => map_kv_upd_older c.arena j m none
      · exact fun m _ => map_newer_upd_older c.arena j m none
      · intro m hm
        have hmj : m ≠ j :=
          fun he => (List.nodup_cons.mp (nodup_split h.nodup).2.1).1 (he ▸ hm)
        rw [getElem?_upd_ne _ _ _ hmj]
      · rw [getElem?_upd_self _ hej]; rfl
      · exact fun m hm => absurd hm (List.not_mem_nil m)
      · exact fun m hm _ => absurd hm (List.not_mem_nil m)
      · exact fun o ho => absurd ho (by simp [back])
    · -- the touched entry had an `older` neighbour `o`
      simp only [hcase]
      have hb : back none xs = some o := by rw [← heiold, hcase]
      obtain ⟨t, rfl⟩ : ∃ t, xs = t ++ [o] := by
        rcases eq_nil_or_append xs with rfl | ⟨t, a, rfl⟩
        · cases hb
        · rw [back_concat] at hb
          exact ⟨t, by rw [Option.some.inj hb]⟩
      have hoxs : o ∈ t ++ [o] := List.mem_append_right _ (by simp)
      have hoj : o ≠ j := fun he => hdisj o hoxs (by
        rw [he]; exact List.mem_cons_self j ys')
      have hoi : o ≠ i := fun he => hixs (he ▸ hoxs)
      obtain ⟨eo, heo⟩ := newerChain_mem hncxs o hoxs
      have hO : (if c.oldest = some i then some j else c.oldest) =
          (((t ++ [o]) ++ (j :: ys')) ++ [i]).head? := by
        rcases t with _ | ⟨x, t'⟩
        · have hold : c.oldest = some o := by rw [h.oldest_eq]; rfl
          have hne2 : ¬ c.oldest = some i := by
            rw [hold]
            intro he
            exact hoi (Option.some.inj he)
          rw [if_neg hne2, hold]; rfl
        · have hold : c.oldest = some x := by rw [h.oldest_eq]; rfl
          have hxi : x ≠ i := fun he =>
            hixs (he ▸ List.mem_append_left _ (List.mem_cons_self x t'))
          have hne2 : ¬ c.oldest = some i := by
            rw [hold]
            intro he
            exact hxi (Option.some.inj he)
          rw [if_neg hne2, hold]; rfl
      have hBi :
          (upd (upd c.arena j fun en => { en with older := some o }) o
            fun eo => { eo with newer := some j })[i]? = some ei := by
        rw [getElem?_upd_ne _ _ _ (Ne.symm hoi), getElem?_upd_ne _ _ _ hij]
        exact hei
      refine valid_markUsed_core h hws hO hBi ?_ ?_ ?_ ?_ ?_ ?_ ?_
      · intro m
        rw [map_kv_upd_newer, map_kv_upd_older]
      · intro m hm
        have hmo : m ≠ o := fun he => hdisj o hoxs (he ▸ hm)
        rw [getElem?_upd_ne _ _ _ hmo]
        exact map_newer_upd_older c.arena j m (some o)
      · intro m hm
        have hmj : m ≠ j :=
          fun he => (List.nodup_cons.mp (nodup_split h.nodup).2.1).1 (he ▸ hm)
        rw [map_older_upd_newer, getElem?_upd_ne _ _ _ hmj]
      · rw [map_older_upd_newer, getElem?_upd_self _ hej, hb]; rfl
      · intro m hm
        have hmj : m ≠ j := fun he => hdisj m hm (by
          rw [he]; exact List.mem_cons_self j ys')
        rw [map_older_upd_newer, getElem?_upd_ne _ _ _ hmj]
      · intro m hm hmo
        rw [hb] at hmo
        have hmo2 : m ≠ o := fun he => hmo (he ▸ rfl)
        rw [getElem?_upd_ne _ _ _ hmo2]
        exact map_newer_upd_older c.arena j m (some o)
      · intro o2 ho2
        rw [hb] at ho2
        cases Option.some.inj ho2
        have heo1 :
            (upd c.arena j fun en => { en with older := some o })[o]? =
              some eo := by
          rw [getElem?_upd_ne _ _ _ hoj]; exact heo
        rw [getElem?_upd_self _ heo1]; rfl

end LRUMap

/-- Every member of the recency sequence is indexed under its own key. -/
theorem Valid.mapGet_of_mem_ids [DecidableEq K] {c : LRUMap K V}
    {ids : List Nat} (h : Valid c ids) {i : Nat} (hi : i ∈ ids) :
    ∃ e, c.arena[i]? = some e ∧ mapGet c.keymap e.key = some i := by
  have hmem : i ∈ c.keymap.map Prod.snd := h.km_snd.mem_iff.mpr hi
  obtain ⟨p, hp, hpi⟩ := List.mem_map.mp hmem
  obtain ⟨e, he, hek⟩ := h.km_get p hp
  refine ⟨e, hpi ▸ he, ?_⟩
  rw [hek]
  have hg : mapGet c.keymap p.1 = some p.2 := mapGet_of_mem h.km_fst hp
  rw [hg, hpi]

/-- A key found in the index names an entry of the recency sequence. -/
theorem Valid.mem_of_mapGet [DecidableEq K] {c : LRUMap K V}
    {ids : List Nat} (h : Valid c ids) {k : K} {i : Nat}
    (hk : mapGet c.keymap k = some i) :
    i ∈ ids ∧ ∃ e, c.arena[i]? = some e ∧ e.key = k := by
  have hp := mapGet_mem hk
  refine ⟨h.km_snd.mem_iff.mp (List.mem_map.mpr ⟨(k, i), hp, rfl⟩), ?_⟩
  exact h.km_get (k, i) hp

namespace LRUMap

/-- `shift` on an empty cache is a no-op returning nothing
(lines 141–142, 158). -/
theorem shift_empty [DecidableEq K] {c : LRUMap K V}
    (h : c.oldest = none) : shift c = (c, none) := by
  simp only [shift, h]

/-- `shift` on a well-formed nonempty cache removes exactly the oldest
entry: it returns its pair, unindexes its key, clears its links,
decrements `size`, and leaves a well-formed cache over the remaining
sequence. -/
theorem valid_shift [DecidableEq K] {c : LRUMap K V} {i : Nat}
    {rest : List Nat} (h : Valid c (i :: rest)) :
    ∃ e, c.arena[i]? = some e ∧
      (shift c).2 = some (e.key, e.value) ∧
      Valid (shift c).1 rest ∧
      (shift c).1.size = c.size - 1 ∧
      (shift c).1.limit = c.limit ∧
      mapGet (shift c).1.keymap e.key = none ∧
      (shift c).1.arena[i]? =
        some { e with newer := none, older := none } := by
  have holdest : c.oldest = some i := by rw [h.oldest_eq]; rfl
  obtain ⟨ei, hei, heinew, hnctail⟩ := h.newer_chain
  obtain ⟨ei1, hei1, heiold1, hoctail⟩ := h.older_chain
  rw [hei] at hei1
  cases Option.some.inj hei1
  obtain ⟨hirest, hndrest⟩ := List.nodup_cons.mp h.nodup
  obtain ⟨e0, he0, hg0⟩ := h.mapGet_of_mem_ids (List.mem_cons_self i rest)
  rw [hei] at he0
  cases Option.some.inj he0
  refine ⟨ei, hei, ?_⟩
  rcases rest with _ | ⟨n, rest'⟩
  · -- sole entry
    simp only [front_nil] at heinew
    have hsh : shift c =
        ({ c with
            oldest := none, newest := none,
            keymap := mapDelete c.keymap ei.key,
            arena := upd c.arena i
              fun e2 => { e2 with newer := none, older := none },
            size := c.size - 1 }, some (ei.key, ei.value)) := by
      simp only [shift, holdest, hei, heinew]
    rw [hsh]
    have hkm : c.keymap.map Prod.snd = [i] :=
      List.perm_singleton.mp h.km_snd
    obtain ⟨p, hp⟩ : ∃ p, c.keymap = [p] := by
      rcases hq : c.keymap with _ | ⟨p, ps⟩
      · rw [hq] at hkm; cases hkm
      · rcases ps with _ | ⟨q, ps2⟩
        · exact ⟨p, rfl⟩
        · rw [hq] at hkm; simp at hkm
    have hpi : p.2 = i := by
      rw [hp] at hkm
      simpa using hkm
    obtain ⟨e2, he2, hek⟩ := h.km_get p (by rw [hp]; simp)
    rw [hpi, hei] at he2
    cases Option.some.inj he2
    have hdel : mapDelete c.keymap ei.key = [] := by
      rw [hp]
      have hpe : p = (ei.key, i) := by
        rw [hek, ← hpi]
      rw [hpe]
      simp [mapDelete]
    refine ⟨rfl, ?_, rfl, rfl, ?_, ?_⟩
    · refine ⟨trivial, trivial, rfl, rfl, ?_, List.nodup_nil, ?_, ?_, ?_⟩
      · simp [h.size_eq]
      · rw [hdel]; exact List.Perm.nil
      · rw [hdel]; exact List.nodup_nil
      · intro p2 hp2
        rw [hdel] at hp2
        cases hp2
    · rw [hdel]; rfl
    · exact getElem?_upd_self _ hei
  · -- more entries remain
    simp only [front_cons] at heinew
    have hsh : shift c =
        ({ c with
            oldest := some n,
            keymap := mapDelete c.keymap ei.key,
            arena := upd (upd c.arena n fun e => { e with older := none }) i
              fun e2 => { e2 with newer := none, older := none },
            size := c.size - 1 }, some (ei.key, ei.value)) := by
      simp only [shift, holdest, hei, heinew]
    rw [hsh]
    obtain ⟨en, hen, henold, hoctail'⟩ := hoctail
    have hin : i ≠ n := fun he => hirest (he ▸ List.mem_cons_self n rest')
    have hnrest' : n ∉ rest' := (List.nodup_cons.mp hndrest).1
    have hA1n : (upd c.arena n fun e => { e with older := none })[n]? =
        some { en with older := none } := getElem?_upd_self _ hen
    have hA2ne : ∀ m : Nat, m ≠ i →
        (upd (upd c.arena n fun e => { e with older := none }) i
          fun e2 => { e2 with newer := none, older := none })[m]? =
        (upd c.arena n fun e => { e with older := none })[m]? :=
      fun m hm => getElem?_upd_ne _ _ _ hm
    have hA1ne : ∀ m : Nat, m ≠ n →
        (upd c.arena n fun e => { e with older := none })[m]? =
        c.arena[m]? := fun m hm => getElem?_upd_ne _ _ _ hm
    have hperm : c.keymap.Perm ((ei.key, i) :: mapDelete c.keymap ei.key) :=
      mapDelete_perm hg0
    refine ⟨rfl, ?_, rfl, rfl, mapGet_mapDelete_self h.km_fst, ?_⟩
    · refine ⟨?_, ?_, rfl, ?_, ?_, hndrest, ?_, ?_, ?_⟩
      · -- older chain
        refine ⟨{ en with older := none }, ?_, rfl, ?_⟩
        · rw [hA2ne n (Ne.symm hin), hA1n]
        · refine olderChain_ext (fun m hm => ?_) hoctail'
          have hmi : m ≠ i :=
            fun he => hirest (he ▸ List.mem_cons_of_mem n hm)
          have hmn : m ≠ n := fun he => hnrest' (he ▸ hm)
          rw [hA2ne m hmi, hA1ne m hmn]
      · -- newer chain
        refine newerChain_ext (fun m hm => ?_) hnctail
        have hmi : m ≠ i := fun he => hirest (he ▸ hm)
        rw [hA2ne m hmi]
        exact map_newer_upd_older c.arena n m none
      · rw [h.newest_eq, List.getLast?_cons_cons]
      · have hs := h.size_eq
        simp only [List.length_cons] at hs ⊢
        omega
      · have h1 : (c.keymap.map Prod.snd).Perm
            (i :: (mapDelete c.keymap ei.key).map Prod.snd) := by
          have h2 := hperm.map Prod.snd
          simpa using h2
        exact (h1.symm.trans h.km_snd).cons_inv
      · exact h.km_fst.sublist
          ((mapDelete_sublist c.keymap ei.key).map Prod.fst)
      · intro p hp
        obtain ⟨e, he, hek⟩ :=
          h.km_get p ((mapDelete_sublist c.keymap ei.key).subset hp)
        have hkv :
            ((upd (upd c.arena n fun e => { e with older := none }) i
              fun e2 => { e2 with newer := none, older := none })[p.2]?).map
                (fun e : Entry K V => (e.key, e.value)) =
              (c.arena[p.2]?).map fun e : Entry K V => (e.key, e.value) := by
          rw [map_kv_upd_both, map_kv_upd_older]
        rw [he] at hkv
        obtain ⟨e4, he4, hkveq⟩ := Option.map_eq_some'.mp hkv
        exact ⟨e4, he4, (congrArg Prod.fst hkveq).trans hek⟩
    · have hA1i : (upd c.arena n fun e => { e with older := none })[i]? =
          some ei := (hA1ne i hin).trans hei
      exact getElem?_upd_self _ hA1i

end LRUMap

namespace LRUMap

/-- `_markEntryAsUsed` only rewires links: key and value of every arena
slot are untouched. -/
theorem markUsed_map_kv (c : LRUMap K V) (i m : Nat) :
    (((_markEntryAsUsed c i).arena[m]?).map
        fun e : Entry K V => (e.key, e.value)) =
      (c.arena[m]?).map fun e : Entry K V => (e.key, e.value) := by
  unfold _markEntryAsUsed
  split
  · rfl
  · split
    · rfl
    · simp only []
      split <;> split <;> split <;>
        simp only [map_kv_upd_older, map_kv_upd_newer, map_kv_upd_both]

/-- The new-entry portion of `set` (lines 114–128), before the capacity
check: index the fresh entry, link it after the current newest, bump
`size`. -/
def setPre [DecidableEq K] (c : LRUMap K V) (k : K) (v : V) : LRUMap K V :=
  let eid := c.arena.length
  let e : Entry K V := ⟨k, v, none, none⟩
  let st :=
    match c.newest with
    | some m =>
        (upd c.arena m (fun em => { em with newer := some eid }) ++
          [{ e with older := c.newest }], c.oldest)
    | none => (c.arena ++ [e], some eid)
  { c with
      keymap := mapSet c.keymap k eid, arena := st.1,
      oldest := st.2, newest := some eid, size := c.size + 1 }

/-- On an absent key, `set` is `setPre` followed by the line 129–132
capacity check. -/
theorem set_absent [DecidableEq K] (c : LRUMap K V) (k : K) (v : V)
    (hk : mapGet c.keymap k = none) :
    set c k v = if (setPre c k v).size > (setPre c k v).limit
      then ((setPre c k v).shift).1 else setPre c k v := by
  simp only [set, hk, setPre]

theorem mapGet_append_self [DecidableEq K] {m : List (K × Nat)} {k : K}
    (i : Nat) (h : mapGet m k = none) : mapGet (m ++ [(k, i)]) k = some i := by
  induction m with
  | nil => simp [mapGet]
  | cons p rest ih =>
    obtain ⟨k', i'⟩ := p
    by_cases hk : k' = k
    · subst hk; simp [mapGet] at h
    · simp only [mapGet, if_neg hk] at h ⊢
      exact ih h

/-- `setPre` on an absent key appends a fresh entry at the newest end of
a well-formed cache. -/
theorem valid_setPre [DecidableEq K] {c : LRUMap K V} {ids : List Nat}
    (k : K) (v : V) (h : Valid c ids) (hk : mapGet c.keymap k = none) :
    Valid (setPre c k v) (ids ++ [c.arena.length]) ∧
      (setPre c k v).size = c.size + 1 ∧
      (setPre c k v).limit = c.limit ∧
      (setPre c k v).keymap = c.keymap ++ [(k, c.arena.length)] ∧
      (setPre c k v).newest = some c.arena.length ∧
      (((setPre c k v).arena[c.arena.length]?).map
        fun e : Entry K V => (e.key, e.value)) = some (k, v) ∧
      ∀ x : Nat, x < c.arena.length →
        (((setPre c k v).arena[x]?).map
          fun e : Entry K V => (e.key, e.value)) =
        (c.arena[x]?).map fun e : Entry K V => (e.key, e.value) := by
  have hkmset : mapSet c.keymap k c.arena.length =
      c.keymap ++ [(k, c.arena.length)] := mapSet_absent _ hk
  have hmemlt : ∀ m ∈ ids, m < c.arena.length :=
    newerChain_mem_lt h.newer_chain
  have hkf2 : (((c.keymap ++ [(k, c.arena.length)]).map Prod.fst)).Nodup := by
    rw [List.map_append]
    rw [List.nodup_append]
    refine ⟨h.km_fst, by simp, ?_⟩
    intro a ha hmem
    simp only [List.map_cons, List.map_nil, List.mem_singleton] at hmem
    subst hmem
    exact (mapGet_eq_none_iff.mp hk) ha
  cases hnew : c.newest with
  | none =>
    have hidsnil : ids = [] := by
      have h2 := h.newest_eq
      rw [hnew] at h2
      exact List.getLast?_eq_none_iff.mp h2.symm
    subst hidsnil
    have hsp : setPre c k v =
        { c with
            keymap := mapSet c.keymap k c.arena.length,
            arena := c.arena ++ [⟨k, v, none, none⟩],
            oldest := some c.arena.length, newest := some c.arena.length,
            size := c.size + 1 } := by
      simp only [setPre, hnew]
    rw [hsp, hkmset]
    refine ⟨?_, rfl, rfl, rfl, rfl,
      by rw [getElem?_append_len]; rfl,
      fun x hx => getElem?_map_append _ _ hx⟩
    refine ⟨?_, ?_, rfl, rfl, ?_, by simp, ?_, hkf2, ?_⟩
    · exact olderChain_singleton.mpr ⟨_, getElem?_append_len c.arena _, rfl⟩
    · exact newerChain_singleton.mpr ⟨_, getElem?_append_len c.arena _, rfl⟩
    · rw [h.size_eq]; rfl
    · rw [List.map_append]
      exact h.km_snd.append (List.Perm.refl _)
    · intro p hp
      rcases List.mem_append.mp hp with hp1 | hp2
      · have hpmem : p.2 ∈ ([] : List Nat) :=
          h.km_snd.mem_iff.mp (List.mem_map.mpr ⟨p, hp1, rfl⟩)
        cases hpmem
      · have hp3 : p = (k, c.arena.length) := by simpa using hp2
        subst hp3
        exact ⟨_, getElem?_append_len c.arena _, rfl⟩
  | some m =>
    obtain ⟨ys, hys⟩ : ∃ ys, ids = ys ++ [m] := by
      have h2 := h.newest_eq
      rw [hnew] at h2
      rcases List.eq_nil_or_concat ids with rfl | ⟨t, a, hta⟩
      · simp at h2
      · rw [List.concat_eq_append] at hta
        subst hta
        rw [List.getLast?_concat] at h2
        exact ⟨t, by rw [Option.some.inj h2]⟩
    subst hys
    have hmids : m ∈ ys ++ [m] := List.mem_append_right _ (by simp)
    have hmlt : m < c.arena.length := hmemlt m hmids
    obtain ⟨em, hem⟩ := newerChain_mem h.newer_chain m hmids
    have hmys : m ∉ ys := by
      have h2 := h.nodup
      rw [List.nodup_append] at h2
      exact fun hmem => h2.2.2 hmem (by simp)
    have hA : ∀ x : Nat, x < c.arena.length → x ≠ m →
        ((upd c.arena m fun e => { e with newer := some c.arena.length }) ++
          [{ key := k, value := v, newer := none, older := some m }])[x]? =
        c.arena[x]? := by
      intro x hx hxm
      rw [getElem?_append_lt _ (by simpa using hx),
        getElem?_upd_ne _ _ _ hxm]
    have hAm :
        ((upd c.arena m fun e => { e with newer := some c.arena.length }) ++
          [{ key := k, value := v, newer := none, older := some m }])[m]? =
        some { em with newer := some c.arena.length } := by
      rw [getElem?_append_lt _ (by simpa using hmlt)]
      exact getElem?_upd_self _ hem
    have hAe :
        ((upd c.arena m fun e => { e with newer := some c.arena.length }) ++
          [{ key := k, value := v, newer := none, older := some m
            }])[c.arena.length]? =
        some { key := k, value := v, newer := none, older := some m } := by
      have hlen : (upd c.arena m
          fun e => { e with newer := some c.arena.length }).length =
          c.arena.length := length_upd _ _ _
      have h2 := getElem?_append_len
        (upd c.arena m fun e => { e with newer := some c.arena.length })
        ({ key := k, value := v, newer := none, older := some m } : Entry K V)
      rw [hlen] at h2
      exact h2
    have hAold : ∀ x ∈ ys ++ [m],
        (((upd c.arena m fun e => { e with newer := some c.arena.length }) ++
          [{ key := k, value := v, newer := none, older := some m
            }])[x]?).map Entry.older =
        (c.arena[x]?).map Entry.older := by
      intro x hx
      by_cases hxm : x = m
      · subst hxm; rw [hAm, hem]; rfl
      · rw [hA x (hmemlt x hx) hxm]
    have hAkv : ∀ x : Nat, x < c.arena.length →
        (((upd c.arena m fun e => { e with newer := some c.arena.length }) ++
          [{ key := k, value := v, newer := none, older := some m
            }])[x]?).map (fun e : Entry K V => (e.key, e.value)) =
        (c.arena[x]?).map fun e : Entry K V => (e.key, e.value) := by
      intro x hx
      by_cases hxm : x = m
      · subst hxm; rw [hAm, hem]; rfl
      · rw [hA x hx hxm]
    have hsp : setPre c k v =
        { c with
            keymap := mapSet c.keymap k c.arena.length,
            arena :=
              (upd c.arena m fun e => { e with
                newer := some c.arena.length }) ++
                [{ key := k, value := v, newer := none, older := some m }],
            newest := some c.arena.length, size := c.size + 1 } := by
      simp only [setPre, hnew]
    rw [hsp, hkmset]
    refine ⟨?_, rfl, rfl, rfl, rfl, by rw [hAe]; rfl, hAkv⟩
    refine ⟨?_, ?_, ?_, ?_, ?_, ?_, ?_, hkf2, ?_⟩
    · -- older chain
      rw [olderChain_append]
      refine ⟨olderChain_ext hAold h.older_chain, ?_⟩
      rw [back_concat]
      exact olderChain_singleton.mpr ⟨_, hAe, rfl⟩
    · -- newer chain
      rw [newerChain_append]
      have hnc := h.newer_chain
      rw [newerChain_append] at hnc
      constructor
      · rw [newerChain_append]
        constructor
        · refine newerChain_ext (fun x hx => ?_) hnc.1
          have hxm : x ≠ m := fun he => hmys (he ▸ hx)
          rw [hA x (hmemlt x (List.mem_append_left _ hx)) hxm]
        · exact newerChain_singleton.mpr ⟨_, hAm, rfl⟩
      · exact newerChain_singleton.mpr ⟨_, hAe, rfl⟩
    · -- oldest endpoint
      rcases ys with _ | ⟨y, ys'⟩ <;> exact h.oldest_eq
    · -- newest endpoint
      rw [List.getLast?_concat]
    · -- size
      have hs := h.size_eq
      simp only [List.length_append, List.length_cons, List.length_nil] at hs ⊢
      omega
    · -- nodup
      rw [List.nodup_append]
      refine ⟨h.nodup, by simp, ?_⟩
      intro a ha hmem
      simp only [List.mem_singleton] at hmem
      rw [hmem] at ha
      exact absurd (hmemlt _ ha) (lt_irrefl _)
    · -- keymap ids
      rw [List.map_append]
      exact h.km_snd.append (List.Perm.refl _)
    · -- keymap entries
      intro p hp
      rcases List.mem_append.mp hp with hp1 | hp2
      · obtain ⟨e, he, hkey⟩ := h.km_get p hp1
        have hpmem : p.2 ∈ ys ++ [m] :=
          h.km_snd.mem_iff.mp (List.mem_map.mpr ⟨p, hp1, rfl⟩)
        have hkv := hAkv p.2 (hmemlt p.2 hpmem)
        rw [he] at hkv
        obtain ⟨e4, he4, hkveq⟩ := Option.map_eq_some'.mp hkv
        exact ⟨e4, he4, (congrArg Prod.fst hkveq).trans hkey⟩
      · simp only [List.mem_singleton] at hp2
        subst hp2
        exact ⟨_, hAe, rfl⟩

end LRUMap

theorem mapGet_mapDelete_ne [DecidableEq K] {m : List (K × Nat)}
    {k k2 : K} (h : k2 ≠ k) : mapGet (mapDelete m k) k2 = mapGet m k2 := by
  induction m with
  | nil => rfl
  | cons p rest ih =>
    obtain ⟨k', i'⟩ := p
    by_cases hk : k' = k
    · subst hk
      rw [show mapDelete ((k', i') :: rest) k' = rest from by
        simp [mapDelete]]
      rw [show mapGet ((k', i') :: rest) k2 = mapGet rest k2 from by
        simp [mapGet, Ne.symm h]]
    · simp only [mapDelete, if_neg hk, mapGet]
      by_cases hk2 : k' = k2
      · simp [hk2]
      · simp only [if_neg hk2]
        exact ih

namespace LRUMap

/-- `shift` never changes any entry's key or value. -/
theorem shift_map_kv [DecidableEq K] (c : LRUMap K V) (m : Nat) :
    (((shift c).1.arena[m]?).map fun e : Entry K V => (e.key, e.value)) =
      (c.arena[m]?).map fun e : Entry K V => (e.key, e.value) := by
  unfold shift
  split
  · rfl
  · split
    · rfl
    · simp only []
      split <;> simp only [map_kv_upd_both, map_kv_upd_older]

/-- `set` on an absent key with spare capacity appends as newest and
evicts nothing. -/
theorem valid_set_new_small [DecidableEq K] {c : LRUMap K V}
    {ids : List Nat} (k : K) (v : V) (h : Valid c ids)
    (hk : mapGet c.keymap k = none) (hlt : c.size < c.limit) :
    Valid (set c k v) (ids ++ [c.arena.length]) ∧
      (set c k v).size = c.size + 1 ∧ (set c k v).limit = c.limit ∧
      mapGet (set c k v).keymap k = some c.arena.length ∧
      (set c k v).newest = some c.arena.length ∧
      (((set c k v).arena[c.arena.length]?).map
        fun e : Entry K V => (e.key, e.value)) = some (k, v) := by
  obtain ⟨hval, hsz, hlim, hkm, hnw, hkve, -⟩ := valid_setPre k v h hk
  have hcond : ¬ ((setPre c k v).size > (setPre c k v).limit) := by
    rw [hsz, hlim]; omega
  rw [set_absent c k v hk, if_neg hcond]
  refine ⟨hval, hsz, hlim, ?_, hnw, hkve⟩
  rw [hkm]
  exact mapGet_append_self _ hk

/-- `set` on an absent key into a full (or over-full) nonempty cache
appends as newest and evicts exactly the current oldest entry. -/
theorem valid_set_new_evict [DecidableEq K] {c : LRUMap K V} {i : Nat}
    {rest : List Nat} (k : K) (v : V) (h : Valid c (i :: rest))
    (hk : mapGet c.keymap k = none) (hge : c.limit ≤ c.size) :
    ∃ e, c.arena[i]? = some e ∧
      Valid (set c k v) (rest ++ [c.arena.length]) ∧
      (set c k v).size = c.size ∧
      (set c k v).limit = c.limit ∧
      mapGet (set c k v).keymap e.key = none ∧
      mapGet (set c k v).keymap k = some c.arena.length ∧
      (set c k v).newest = some c.arena.length := by
  obtain ⟨hval, hsz, hlim, hkm, hnw, -, hkv⟩ := valid_setPre k v h hk
  have hcond : (setPre c k v).size > (setPre c k v).limit := by
    rw [hsz, hlim]; omega
  rw [set_absent c k v hk, if_pos hcond]
  have hval2 : Valid (setPre c k v) (i :: (rest ++ [c.arena.length])) := hval
  obtain ⟨e1, he1, hpair, hval3, hsz3, hlim3, hkdel, harena⟩ :=
    valid_shift hval2
  obtain ⟨e, he⟩ := newerChain_mem h.newer_chain i (List.mem_cons_self i rest)
  have hkvi := hkv i (lt_length_of_getElem? he)
  rw [he1, he] at hkvi
  have hkey1 : e1.key = e.key :=
    congrArg Prod.fst (Option.some.inj hkvi)
  have hkmg : mapGet (setPre c k v).keymap k = some c.arena.length := by
    rw [hkm]
    exact mapGet_append_self _ hk
  obtain ⟨-, e2, he2, hek2⟩ := hval2.mem_of_mapGet hkmg
  refine ⟨e, he, hval3, ?_, ?_, ?_, ?_, ?_⟩
  · rw [hsz3, hsz]; omega
  · rw [hlim3, hlim]
  · rw [← hkey1]; exact hkdel
  · have hmem : c.arena.length ∈ rest ++ [c.arena.length] :=
      List.mem_append_right _ (by simp)
    obtain ⟨e3, he3, hg3⟩ := hval3.mapGet_of_mem_ids hmem
    have hkv3 := shift_map_kv (setPre c k v) c.arena.length
    rw [he3, he2] at hkv3
    have hk3 : e3.key = e2.key := congrArg Prod.fst (Option.some.inj hkv3)
    rw [hk3, hek2] at hg3
    exact hg3
  · have := hval3.newest_eq
    rw [this, List.getLast?_concat]

/-- `set` of a fresh key on a well-formed empty cache with limit `0`:
the entry is inserted and then immediately evicted again. -/
theorem valid_set_zero [DecidableEq K] {c : LRUMap K V} (k : K) (v : V)
    (h : Valid c []) (hlim : c.limit = 0) :
    Valid (set c k v) [] ∧ (set c k v).size = 0 ∧
      (set c k v).limit = c.limit ∧
      mapGet (set c k v).keymap k = none ∧
      (set c k v).oldest = none ∧ (set c k v).newest = none := by
  have hkm0 : c.keymap = [] := by
    cases hq : c.keymap with
    | nil => rfl
    | cons p ps =>
      have h2 := h.km_snd
      rw [hq] at h2
      have := h2.length_eq
      simp at this
  have hk : mapGet c.keymap k = none := by rw [hkm0]; rfl
  obtain ⟨hval, hsz, hlim2, hkm, hnw, -, hkv⟩ := valid_setPre k v h hk
  have hcond : (setPre c k v).size > (setPre c k v).limit := by
    rw [hsz, hlim2, h.size_eq, hlim]
    simp
  rw [set_absent c k v hk, if_pos hcond]
  have hval2 : Valid (setPre c k v) (c.arena.length :: []) := hval
  obtain ⟨e1, he1, hpair, hval3, hsz3, hlim3, hkdel, harena⟩ :=
    valid_shift hval2
  have hkmg : mapGet (setPre c k v).keymap k = some c.arena.length := by
    rw [hkm]
    exact mapGet_append_self _ hk
  obtain ⟨-, e2, he2, hek2⟩ := hval2.mem_of_mapGet hkmg
  rw [he1] at he2
  cases Option.some.inj he2
  refine ⟨hval3, ?_, hlim3.trans hlim2, ?_, ?_, ?_⟩
  · rw [hsz3, hsz, h.size_eq]
    simp
  · rw [hek2] at hkdel; exact hkdel
  · exact hval3.oldest_eq
  · exact hval3.newest_eq

end LRUMap

namespace LRUMap

/-- `set` on a present key replaces its value in place and promotes the
entry to newest; size, limit and index are untouched. -/
theorem valid_set_existing [DecidableEq K] {c : LRUMap K V}
    {xs ys : List Nat} {i : Nat} (k : K) (v : V)
    (h : Valid c (xs ++ i :: ys)) (hk : mapGet c.keymap k = some i) :
    Valid (set c k v) (xs ++ ys ++ [i]) ∧
      (set c k v).size = c.size ∧ (set c k v).limit = c.limit ∧
      (set c k v).keymap = c.keymap ∧
      (set c k v).newest = some i ∧
      ((set c k v).arena[i]?).map (fun e : Entry K V => (e.key, e.value)) =
        some (k, v) := by
  obtain ⟨-, e, he, hek⟩ := h.mem_of_mapGet hk
  simp only [set, hk]
  have hc1 : Valid
      { c with arena := upd c.arena i fun e => { e with value := v } }
      (xs ++ i :: ys) := by
    refine ⟨?_, ?_, h.oldest_eq, h.newest_eq, h.size_eq, h.nodup,
      h.km_snd, h.km_fst, ?_⟩
    · refine olderChain_ext (fun m _ => ?_) h.older_chain
      exact map_older_upd_value c.arena i m v
    · refine newerChain_ext (fun m _ => ?_) h.newer_chain
      exact map_newer_upd_value c.arena i m v
    · intro p hp
      obtain ⟨e2, he2, hek2⟩ := h.km_get p hp
      have hkmap := map_key_upd_value c.arena i p.2 v
      rw [he2] at hkmap
      obtain ⟨e3, he3, hk3⟩ := Option.map_eq_some'.mp hkmap
      exact ⟨e3, he3, hk3.trans hek2⟩
  have hres := valid_markUsed hc1
  refine ⟨hres, markUsed_size _ _, markUsed_limit _ _, markUsed_keymap _ _,
    ?_, ?_⟩
  · rw [hres.newest_eq, List.getLast?_concat]
  · have hkv := markUsed_map_kv
      { c with arena := upd c.arena i fun e => { e with value := v } } i i
    have hIm : (upd c.arena i fun e => { e with value := v })[i]? =
        some { e with value := v } := getElem?_upd_self _ he
    rw [hIm] at hkv
    rw [hkv, hek]
    simp

/-- `get` on an absent key returns nothing and is a no-op (lines 92–96). -/
theorem get_absent [DecidableEq K] {c : LRUMap K V} {k : K}
    (hk : mapGet c.keymap k = none) : get c k = (c, none) := by
  simp only [get, hk]

/-- `get` on a present key returns the stored value and promotes the
entry to newest; size, limit and index are untouched. -/
theorem valid_get_present [DecidableEq K] {c : LRUMap K V}
    {xs ys : List Nat} {i : Nat} (k : K)
    (h : Valid c (xs ++ i :: ys)) (hk : mapGet c.keymap k = some i) :
    ∃ e, c.arena[i]? = some e ∧ e.key = k ∧
      (get c k).1 = _markEntryAsUsed c i ∧
      (get c k).2 = some e.value ∧
      Valid (get c k).1 (xs ++ ys ++ [i]) ∧
      (get c k).1.newest = some i ∧
      (get c k).1.size = c.size ∧ (get c k).1.limit = c.limit ∧
      (get c k).1.keymap = c.keymap := by
  obtain ⟨-, e, he, hek⟩ := h.mem_of_mapGet hk
  have hkv := markUsed_map_kv c i i
  rw [he] at hkv
  obtain ⟨e2, he2, hkv2⟩ := Option.map_eq_some'.mp hkv
  have hval : e2.value = e.value := congrArg Prod.snd hkv2
  have hg : get c k = (_markEntryAsUsed c i, some e2.value) := by
    simp only [get, hk, he2]
  have hres := valid_markUsed h
  refine ⟨e, he, hek, by rw [hg], by rw [hg, hval], by rw [hg]; exact hres,
    ?_, by rw [hg]; exact markUsed_size _ _,
    by rw [hg]; exact markUsed_limit _ _,
    by rw [hg]; exact markUsed_keymap _ _⟩
  rw [hg]
  rw [show ((_markEntryAsUsed c i, some e2.value).1 : LRUMap K V).newest =
    (_markEntryAsUsed c i).newest from rfl]
  rw [hres.newest_eq, List.getLast?_concat]

/-- `delete` on an absent key returns nothing and is a no-op
(lines 182–184). -/
theorem delete_absent [DecidableEq K] {c : LRUMap K V} {k : K}
    (hk : mapGet c.keymap k = none) : delete c k = (c, none) := by
  simp only [delete, hk]

end LRUMap

namespace LRUMap

/-- `delete` on a present key unlinks the entry wherever it sits
(reconnecting its neighbours), removes the key from the index,
decrements `size`, returns the stored value, and leaves the removed
entry's own links untouched. -/
theorem valid_delete [DecidableEq K] {c : LRUMap K V} {xs ys : List Nat}
    {i : Nat} (k : K) (h : Valid c (xs ++ i :: ys))
    (hk : mapGet c.keymap k = some i) :
    ∃ e, c.arena[i]? = some e ∧ e.key = k ∧
      (delete c k).2 = some e.value ∧
      Valid (delete c k).1 (xs ++ ys) ∧
      (delete c k).1.size = c.size - 1 ∧
      (delete c k).1.limit = c.limit ∧
      mapGet (delete c k).1.keymap k = none ∧
      (delete c k).1.arena[i]? = c.arena[i]? := by
  obtain ⟨hndxs, hndys, hixs, hiys, hdisj⟩ := nodup_split h.nodup
  have hnc := h.newer_chain
  rw [newerChain_append] at hnc
  obtain ⟨hncxs, hnci⟩ := hnc
  simp only [front_cons] at hncxs
  obtain ⟨e, he, henew, hncys⟩ := hnci
  have hoc := h.older_chain
  rw [olderChain_append] at hoc
  obtain ⟨hocxs, hoci⟩ := hoc
  obtain ⟨e1, he1, heold, hocys⟩ := hoci
  rw [he] at he1
  cases Option.some.inj he1
  obtain ⟨-, e2, he2, hek⟩ := h.mem_of_mapGet hk
  rw [he] at he2
  cases Option.some.inj he2
  have hperm := mapDelete_perm hk
  have hsnd : ((mapDelete c.keymap k).map Prod.snd).Perm (xs ++ ys) := by
    have h1 : (c.keymap.map Prod.snd).Perm
        (i :: (mapDelete c.keymap k).map Prod.snd) := by
      have h2 := hperm.map Prod.snd
      simpa using h2
    have h3 : (c.keymap.map Prod.snd).Perm (i :: (xs ++ ys)) :=
      h.km_snd.trans List.perm_middle
    exact (h1.symm.trans h3).cons_inv
  have hfst : ((mapDelete c.keymap k).map Prod.fst).Nodup :=
    h.km_fst.sublist ((mapDelete_sublist c.keymap k).map Prod.fst)
  have hdelself : mapGet (mapDelete c.keymap k) k = none :=
    mapGet_mapDelete_self h.km_fst
  have hsub : (xs ++ ys).Sublist (xs ++ i :: ys) :=
    ((List.Sublist.refl ys).cons i).append_left xs
  have hnd2 : (xs ++ ys).Nodup := h.nodup.sublist hsub
  have hsz2 : c.size - 1 = (xs ++ ys).length := by
    have hs := h.size_eq
    simp only [List.length_append, List.length_cons] at hs ⊢
    omega
  have hkget2 : ∀ p ∈ mapDelete c.keymap k,
      ∃ e3, c.arena[p.2]? = some e3 ∧ e3.key = p.1 :=
    fun p hp => h.km_get p ((mapDelete_sublist c.keymap k).subset hp)
  refine ⟨e, he, hek, ?_⟩
  rcases ys with _ | ⟨j, ys'⟩ <;>
    rcases eq_nil_or_append xs with rfl | ⟨zs, o, rfl⟩
  · -- sole entry
    simp only [front_nil] at henew
    simp only [back_nil] at heold
    have hd : delete c k =
        ({ c with
            keymap := mapDelete c.keymap k, oldest := none, newest := none,
            size := c.size - 1 }, some e.value) := by
      simp only [delete, hk, he, hek, henew, heold]
    rw [hd]
    refine ⟨rfl, ?_, rfl, rfl, hdelself, rfl⟩
    exact ⟨trivial, trivial, rfl, rfl, hsz2, hnd2, hsnd, hfst, hkget2⟩
  · -- removing the newest, with older neighbours
    simp only [front_nil] at henew
    rw [back_concat] at heold
    rw [newerChain_append] at hncxs
    obtain ⟨hnczs, hnco⟩ := hncxs
    obtain ⟨eo, heo, heonew⟩ := newerChain_singleton.mp hnco
    have hoxs : o ∈ zs ++ [o] := List.mem_append_right _ (by simp)
    have hozs : o ∉ zs := by
      rw [List.nodup_append] at hndxs
      exact fun hmem => hndxs.2.2 hmem (by simp)
    have hio : i ≠ o := fun he2 => hixs (he2 ▸ hoxs)
    have hd : delete c k =
        ({ c with
            keymap := mapDelete c.keymap k,
            arena := upd c.arena o fun en => { en with newer := none },
            newest := some o,
            size := c.size - 1 }, some e.value) := by
      simp only [delete, hk, he, hek, henew, heold]
    rw [hd]
    refine ⟨rfl, ?_, rfl, rfl, hdelself, getElem?_upd_ne _ _ _ hio⟩
    refine ⟨?_, ?_, ?_, ?_, hsz2, hnd2, hsnd, hfst, ?_⟩
    · -- older chain
      rw [List.append_nil]
      refine olderChain_ext (fun m _ => ?_) hocxs
      exact map_older_upd_newer c.arena o m none
    · -- newer chain
      rw [List.append_nil, newerChain_append]
      constructor
      · refine newerChain_ext (fun m hm => ?_) hnczs
        have hmo : m ≠ o := fun he2 => hozs (he2 ▸ hm)
        rw [getElem?_upd_ne _ _ _ hmo]
      · exact newerChain_singleton.mpr
          ⟨_, getElem?_upd_self _ heo, rfl⟩
    · rw [List.append_nil]
      rcases zs with _ | ⟨z, zs'⟩ <;> exact h.oldest_eq
    · rw [List.append_nil, List.getLast?_concat]
    · intro p hp
      obtain ⟨e3, he3, hek3⟩ := hkget2 p hp
      have hkv := map_kv_upd_newer c.arena o p.2 none
      rw [he3] at hkv
      obtain ⟨e4, he4, hkv4⟩ := Option.map_eq_some'.mp hkv
      exact ⟨e4, he4, (congrArg Prod.fst hkv4).trans hek3⟩
  · -- removing the oldest, with newer neighbours
    simp only [front_cons] at henew
    simp only [back_nil] at heold
    obtain ⟨ej, hej, hejold, hocys'⟩ := hocys
    have hij : i ≠ j := fun he2 => hiys (he2 ▸ List.mem_cons_self j ys')
    have hjys' : j ∉ ys' := (List.nodup_cons.mp hndys).1
    have hd : delete c k =
        ({ c with
            keymap := mapDelete c.keymap k,
            arena := upd c.arena j fun en => { en with older := none },
            oldest := some j,
            size := c.size - 1 }, some e.value) := by
      simp only [delete, hk, he, hek, henew, heold]
    rw [hd]
    refine ⟨rfl, ?_, rfl, rfl, hdelself, getElem?_upd_ne _ _ _ hij⟩
    refine ⟨?_, ?_, rfl, ?_, hsz2, hnd2, hsnd, hfst, ?_⟩
    · -- older chain
      refine ⟨_, getElem?_upd_self _ hej, rfl, ?_⟩
      refine olderChain_ext (fun m hm => ?_) hocys'
      have hmj : m ≠ j := fun he2 => hjys' (he2 ▸ hm)
      rw [getElem?_upd_ne _ _ _ hmj]
    · -- newer chain
      refine newerChain_ext (fun m _ => ?_) hncys
      exact map_newer_upd_older c.arena j m none
    · have hne := h.newest_eq
      simp only [List.nil_append] at hne
      rw [List.getLast?_cons_cons] at hne
      exact hne
    · intro p hp
      obtain ⟨e3, he3, hek3⟩ := hkget2 p hp
      have hkv := map_kv_upd_older c.arena j p.2 none
      rw [he3] at hkv
      obtain ⟨e4, he4, hkv4⟩ := Option.map_eq_some'.mp hkv
      exact ⟨e4, he4, (congrArg Prod.fst hkv4).trans hek3⟩
  · -- interior removal
    simp only [front_cons] at henew
    rw [back_concat] at heold
    rw [newerChain_append] at hncxs
    obtain ⟨hnczs, hnco⟩ := hncxs
    obtain ⟨eo, heo, heonew⟩ := newerChain_singleton.mp hnco
    obtain ⟨ej, hej, hejold, hocys'⟩ := hocys
    have hoxs : o ∈ zs ++ [o] := List.mem_append_right _ (by simp)
    have hozs : o ∉ zs := by
      rw [List.nodup_append] at hndxs
      exact fun hmem => hndxs.2.2 hmem (by simp)
    have hio : i ≠ o := fun he2 => hixs (he2 ▸ hoxs)
    have hij : i ≠ j := fun he2 => hiys (he2 ▸ List.mem_cons_self j ys')
    have hoj : o ≠ j := fun he2 =>
      hdisj o hoxs (by rw [he2]; exact List.mem_cons_self j ys')
    have hjys' : j ∉ ys' := (List.nodup_cons.mp hndys).1
    have hd : delete c k =
        ({ c with
            keymap := mapDelete c.keymap k,
            arena := upd (upd c.arena o fun eo2 => { eo2 with
                newer := some j }) j
              fun en => { en with older := some o },
            size := c.size - 1 }, some e.value) := by
      simp only [delete, hk, he, hek, henew, heold]
    rw [hd]
    have hAj :
        (upd (upd c.arena o fun eo2 => { eo2 with newer := some j }) j
          fun en => { en with older := some o })[j]? =
        some { ej with older := some o } := by
      have hinner :
          (upd c.arena o fun eo2 => { eo2 with newer := some j })[j]? =
          some ej := by
        rw [getElem?_upd_ne _ _ _ (Ne.symm hoj)]; exact hej
      exact getElem?_upd_self _ hinner
    refine ⟨rfl, ?_, rfl, rfl, hdelself, ?_⟩
    · refine ⟨?_, ?_, ?_, ?_, hsz2, hnd2, hsnd, hfst, ?_⟩
      · -- older chain
        rw [olderChain_append]
        constructor
        · refine olderChain_ext (fun m hm => ?_) hocxs
          have hmj : m ≠ j := fun he2 =>
            hdisj m hm (by rw [he2]; exact List.mem_cons_self j ys')
          rw [getElem?_upd_ne _ _ _ hmj]
          exact map_older_upd_newer c.arena o m (some j)
        · rw [back_concat]
          refine ⟨_, hAj, rfl, ?_⟩
          refine olderChain_ext (fun m hm => ?_) hocys'
          have hmj : m ≠ j := fun he2 => hjys' (he2 ▸ hm)
          have hmo : m ≠ o := fun he2 =>
            hdisj o hoxs (by rw [← he2]; exact List.mem_cons_of_mem j hm)
          rw [getElem?_upd_ne _ _ _ hmj, getElem?_upd_ne _ _ _ hmo]
      · -- newer chain
        rw [newerChain_append]
        constructor
        · rw [newerChain_append]
          constructor
          · refine newerChain_ext (fun m hm => ?_) hnczs
            have hmo : m ≠ o := fun he2 => hozs (he2 ▸ hm)
            have hmj : m ≠ j := fun he2 =>
              hdisj m (List.mem_append_left _ hm)
                (by rw [he2]; exact List.mem_cons_self j ys')
            rw [getElem?_upd_ne _ _ _ hmj, getElem?_upd_ne _ _ _ hmo]
          · have hup : (upd (upd c.arena o
                fun eo2 => { eo2 with newer := some j }) j
                fun en => { en with older := some o })[o]? =
                some { eo with newer := some j } := by
              rw [getElem?_upd_ne _ _ _ hoj]
              exact getElem?_upd_self _ heo
            exact newerChain_singleton.mpr ⟨_, hup, rfl⟩
        · refine newerChain_ext (fun m hm => ?_) hncys
          have hmo : m ≠ o := fun he2 => hdisj o hoxs (he2 ▸ hm)
          rw [map_newer_upd_older
            (upd c.arena o fun eo2 => { eo2 with newer := some j }) j m
            (some o), getElem?_upd_ne _ _ _ hmo]
      · rcases zs with _ | ⟨z, zs'⟩ <;> exact h.oldest_eq
      · have hne := h.newest_eq
        rw [List.getLast?_append_cons, List.getLast?_cons_cons] at hne
        rw [List.getLast?_append_cons]
        exact hne
      · intro p hp
        obtain ⟨e3, he3, hek3⟩ := hkget2 p hp
        have hkv :
            ((upd (upd c.arena o fun eo2 => { eo2 with newer := some j }) j
              fun en => { en with older := some o })[p.2]?).map
                (fun e4 : Entry K V => (e4.key, e4.value)) =
              (c.arena[p.2]?).map fun e4 : Entry K V => (e4.key, e4.value) := by
          rw [map_kv_upd_older, map_kv_upd_newer]
        rw [he3] at hkv
        obtain ⟨e4, he4, hkv4⟩ := Option.map_eq_some'.mp hkv
        exact ⟨e4, he4, (congrArg Prod.fst hkv4).trans hek3⟩
    · rw [getElem?_upd_ne _ _ _ hij, getElem?_upd_ne _ _ _ hio]

end LRUMap

theorem mapGet_append_none [DecidableEq K] {m : List (K × Nat)} {k k2 : K}
    {i : Nat} (h : mapGet m k2 = none) (hne : k2 ≠ k) :
    mapGet (m ++ [(k, i)]) k2 = none := by
  induction m with
  | nil => simp [mapGet, Ne.symm hne]
  | cons p rest ih =>
    obtain ⟨k', i'⟩ := p
    by_cases hk : k' = k2
    · subst hk; simp [mapGet] at h
    · simp only [mapGet, if_neg hk] at h
      simp only [List.cons_append, mapGet, if_neg hk]
      exact ih h

namespace LRUMap

/-- `clear` resets to the well-formed empty state (lines 210–215). -/
theorem valid_clear (c : LRUMap K V) : Valid (clear c) [] := by
  exact ⟨trivial, trivial, rfl, rfl, rfl, List.nodup_nil, List.Perm.nil,
    List.nodup_nil, fun p hp => absurd hp (List.not_mem_nil p)⟩

/-- A freshly constructed cache is well formed and empty. -/
theorem valid_mk0 (n : Nat) : Valid (mk0 n : LRUMap K V) [] := by
  exact ⟨trivial, trivial, rfl, rfl, rfl, List.nodup_nil, List.Perm.nil,
    List.nodup_nil, fun p hp => absurd hp (List.not_mem_nil p)⟩

/-- The `assign` loop throws exactly when the fuel (the saved `limit`
local) is finite and smaller than the number of pairs. -/
theorem assignLoop_throws [DecidableEq K] :
    ∀ (es : List (K × V)) (prevId fuel : Option Nat) (c : LRUMap K V),
    (assignLoop prevId fuel c es).2 = true ↔
      ∃ m, fuel = some m ∧ m < es.length := by
  intro es
  induction es with
  | nil =>
    intro prevId fuel c
    simp [assignLoop]
  | cons kv rest ih =>
    intro prevId fuel c
    obtain ⟨k, v⟩ := kv
    rcases fuel with _ | ⟨_ | m⟩
    · simp only [assignLoop, ih]
      constructor
      · rintro ⟨m, hm, -⟩; cases hm
      · rintro ⟨m, hm, -⟩; cases hm
    · simp [assignLoop]
    · simp only [assignLoop, ih]
      constructor
      · rintro ⟨m2, hm2, hlt⟩
        cases Option.some.inj hm2
        exact ⟨m + 1, rfl, by simpa using Nat.succ_lt_succ hlt⟩
      · rintro ⟨m2, hm2, hlt⟩
        cases Option.some.inj hm2
        exact ⟨m, rfl, by simpa using Nat.lt_of_succ_lt_succ hlt⟩

/-- `assign` throws the overflow error exactly when the limit is nonzero
and smaller than the number of supplied pairs. -/
theorem assign_overflow_iff [DecidableEq K] (c : LRUMap K V)
    (es : List (K × V)) :
    (assign c es).2 = true ↔ (c.limit ≠ 0 ∧ c.limit < es.length) := by
  unfold assign
  rw [assignLoop_throws]
  by_cases h0 : c.limit = 0 <;> simp [h0]

/-- The `assign` loop never touches `limit`. -/
theorem assignLoop_limit [DecidableEq K] :
    ∀ (es : List (K × V)) (prevId fuel : Option Nat) (c : LRUMap K V),
    (assignLoop prevId fuel c es).1.limit = c.limit := by
  intro es
  induction es with
  | nil => intro prevId fuel c; rfl
  | cons kv rest ih =>
    intro prevId fuel c
    obtain ⟨k, v⟩ := kv
    rcases fuel with _ | ⟨_ | m⟩ <;>
      first
        | rfl
        | (simp only [assignLoop]; rw [ih])

/-- When the `assign` loop throws, `size` and `newest` still hold their
values from before the call: the loop only writes them on normal exit
(lines 84–85). -/
theorem assignLoop_throw_state [DecidableEq K] :
    ∀ (es : List (K × V)) (prevId fuel : Option Nat) (c : LRUMap K V),
    (assignLoop prevId fuel c es).2 = true →
    (assignLoop prevId fuel c es).1.size = c.size ∧
      (assignLoop prevId fuel c es).1.newest = c.newest := by
  intro es
  induction es with
  | nil => intro prevId fuel c h; cases h
  | cons kv rest ih =>
    intro prevId fuel c h
    obtain ⟨k, v⟩ := kv
    rcases fuel with _ | ⟨_ | m⟩
    · simp only [assignLoop] at h ⊢
      exact ih _ _ _ h
    · exact ⟨rfl, rfl⟩
    · simp only [assignLoop] at h ⊢
      exact ih _ _ _ h

/-- When the `assign` loop throws after consuming fuel `m`, the index
holds the keys inserted so far: the keys of the first `m + 1` pairs,
appended to whatever the index held when the loop started. -/
theorem assignLoop_throw_keys [DecidableEq K] :
    ∀ (es : List (K × V)) (prevId : Option Nat) (m : Nat) (c : LRUMap K V),
    m < es.length →
    ((es.take (m + 1)).map Prod.fst).Nodup →
    (∀ k2 ∈ (es.take (m + 1)).map Prod.fst, mapGet c.keymap k2 = none) →
    (assignLoop prevId (some m) c es).1.keymap.map Prod.fst =
      c.keymap.map Prod.fst ++ (es.take (m + 1)).map Prod.fst := by
  intro es
  induction es with
  | nil => intro prevId m c h; cases h
  | cons kv rest ih =>
    intro prevId m c hlt hnd habs
    obtain ⟨k, v⟩ := kv
    have hkabs : mapGet c.keymap k = none :=
      habs k (by simp)
    have hset : mapSet c.keymap k c.arena.length =
        c.keymap ++ [(k, c.arena.length)] := mapSet_absent _ hkabs
    rcases m with _ | m
    · -- the throwing iteration
      simp only [assignLoop, hset]
      simp
    · have hstep : assignLoop prevId (some (m + 1)) c ((k, v) :: rest) =
          assignLoop (some c.arena.length) (some m)
            { c with
                keymap := mapSet c.keymap k c.arena.length,
                arena := match prevId with
                  | none => c.arena ++ [⟨k, v, none, none⟩]
                  | some p => upd c.arena p (fun ep =>
                      { ep with newer := some c.arena.length }) ++
                      [{ key := k, value := v, newer := none, older := some p }],
                oldest := match prevId with
                  | none => some c.arena.length
                  | some _ => c.oldest } rest := by
        rcases prevId with _ | p <;> simp only [assignLoop]
      have hnd2 := hnd
      rw [List.take_succ_cons, List.map_cons, List.nodup_cons] at hnd2
      have hm2 : m < rest.length := by
        simp only [List.length_cons] at hlt
        omega
      have habs2 : ∀ k2 ∈ (rest.take (m + 1)).map Prod.fst,
          mapGet (mapSet c.keymap k c.arena.length) k2 = none := by
        intro k2 hk2
        rw [hset]
        have hk2old : mapGet c.keymap k2 = none :=
          habs k2 (by rw [List.take_succ_cons, List.map_cons]
                      exact List.mem_cons_of_mem _ hk2)
        have hk2ne : k2 ≠ k := fun he => hnd2.1 (he ▸ hk2)
        exact mapGet_append_none hk2old hk2ne
      rw [hstep, ih _ m _ hm2 hnd2.2 habs2]
      rw [show ({ c with
          keymap := mapSet c.keymap k c.arena.length,
          arena := match prevId with
            | none => c.arena ++ [⟨k, v, none, none⟩]
            | some p => upd c.arena p (fun ep =>
                { ep with newer := some c.arena.length }) ++
                [{ key := k, value := v, newer := none, older := some p }],
          oldest := match prevId with
            | none => some c.arena.length
            | some _ => c.oldest } : LRUMap K V).keymap =
        mapSet c.keymap k c.arena.length from rfl]
      rw [hset, List.take_succ_cons, List.map_cons, List.map_append]
      simp

end LRUMap

namespace LRUMap

/-- On overflow, `assign` leaves the cleared-and-partially-refilled
state: the index holds exactly the keys of the first `limit + 1` pairs,
while `size` and `newest` keep their pre-call values. -/
theorem assign_overflow_state [DecidableEq K] (c : LRUMap K V)
    (es : List (K × V)) (hl0 : c.limit ≠ 0) (hlen : c.limit < es.length)
    (hnd : ((es.take (c.limit + 1)).map Prod.fst).Nodup) :
    (assign c es).2 = true ∧
      (assign c es).1.size = c.size ∧
      (assign c es).1.newest = c.newest ∧
      (assign c es).1.limit = c.limit ∧
      (assign c es).1.keymap.map Prod.fst =
        (es.take (c.limit + 1)).map Prod.fst := by
  have ha : assign c es =
      assignLoop none (some c.limit) { c with keymap := [] } es := by
    unfold assign
    rw [if_neg hl0]
  have hthrow : (assign c es).2 = true :=
    (assign_overflow_iff c es).mpr ⟨hl0, hlen⟩
  rw [ha] at hthrow ⊢
  obtain ⟨hsz, hnw⟩ := assignLoop_throw_state es none (some c.limit) _ hthrow
  have hkeys := assignLoop_throw_keys es none c.limit
    { c with keymap := [] } hlen hnd (by intro k2 _; rfl)
  refine ⟨hthrow, hsz, hnw, assignLoop_limit _ _ _ _, ?_⟩
  rw [hkeys]
  rfl

/-- Loop invariant for `assign` on fresh, distinct keys with enough fuel:
after at least one pair has been inserted, running the loop on the
remaining pairs succeeds and yields a well-formed cache. -/
theorem assignLoop_valid [DecidableEq K] :
    ∀ (es : List (K × V)) (c : LRUMap K V) (built : List Nat) (p : Nat)
      (fuel : Option Nat),
    olderChain c.arena none (built ++ [p]) →
    newerChain c.arena (built ++ [p]) none →
    c.oldest = (built ++ [p]).head? →
    (built ++ [p]).Nodup →
    (∀ x ∈ built ++ [p], x < c.arena.length) →
    c.keymap.map Prod.snd = built ++ [p] →
    (c.keymap.map Prod.fst).Nodup →
    (∀ q ∈ c.keymap, ∃ e, c.arena[q.2]? = some e ∧ e.key = q.1) →
    (es.map Prod.fst).Nodup →
    (∀ k2 ∈ es.map Prod.fst, mapGet c.keymap k2 = none) →
    (fuel = none ∨ ∃ m, fuel = some m ∧ es.length ≤ m) →
    (assignLoop (some p) fuel c es).2 = false ∧
      ∃ ids, Valid (assignLoop (some p) fuel c es).1 ids ∧
        (assignLoop (some p) fuel c es).1.limit = c.limit := by
  intro es
  induction es with
  | nil =>
    intro c built p fuel h1 h2 h3 h4 h5 h6 h7 h8 h9 h10 h11
    have hres : assignLoop (some p) fuel c ([] : List (K × V)) =
        ({ c with newest := some p, size := c.keymap.length }, false) := by
      cases fuel <;> rfl
    rw [hres]
    refine ⟨rfl, built ++ [p], ⟨h1, h2, h3, ?_, ?_, h4, ?_, h7, h8⟩, rfl⟩
    · rw [List.getLast?_concat]
    · calc c.keymap.length = (c.keymap.map Prod.snd).length :=
          (List.length_map _ _).symm
        _ = (built ++ [p]).length := by rw [h6]
    · exact h6 ▸ List.Perm.refl _
  | cons kv rest ih =>
    intro c built p fuel h1 h2 h3 h4 h5 h6 h7 h8 h9 h10 h11
    obtain ⟨k, v⟩ := kv
    have hkabs : mapGet c.keymap k = none := h10 k (by simp)
    have hset : mapSet c.keymap k c.arena.length =
        c.keymap ++ [(k, c.arena.length)] := mapSet_absent _ hkabs
    obtain ⟨ep, hep⟩ := newerChain_mem h2 p (List.mem_append_right _ (by simp))
    have hplt : p < c.arena.length := lt_length_of_getElem? hep
    have hpbuilt : p ∉ built := by
      rw [List.nodup_append] at h4
      exact fun hmem => h4.2.2 hmem (by simp)
    have hndr := h9
    rw [List.map_cons, List.nodup_cons] at hndr
    -- the state after inserting (k, v)
    have hA : ∀ x : Nat, x < c.arena.length → x ≠ p →
        ((upd c.arena p fun e => { e with newer := some c.arena.length }) ++
          [{ key := k, value := v, newer := none, older := some p }])[x]? =
        c.arena[x]? := by
      intro x hx hxp
      rw [getElem?_append_lt _ (by simpa using hx),
        getElem?_upd_ne _ _ _ hxp]
    have hAp :
        ((upd c.arena p fun e => { e with newer := some c.arena.length }) ++
          [{ key := k, value := v, newer := none, older := some p }])[p]? =
        some { ep with newer := some c.arena.length } := by
      rw [getElem?_append_lt _ (by simpa using hplt)]
      exact getElem?_upd_self _ hep
    have hAe :
        ((upd c.arena p fun e => { e with newer := some c.arena.length }) ++
          [{ key := k, value := v, newer := none, older := some p
            }])[c.arena.length]? =
        some { key := k, value := v, newer := none, older := some p } := by
      have h2l := getElem?_append_len
        (upd c.arena p fun e => { e with newer := some c.arena.length })
        ({ key := k, value := v, newer := none, older := some p } : Entry K V)
      rw [length_upd] at h2l
      exact h2l
    have hAold : ∀ x ∈ built ++ [p],
        (((upd c.arena p fun e => { e with newer := some c.arena.length }) ++
          [{ key := k, value := v, newer := none, older := some p
            }])[x]?).map Entry.older =
        (c.arena[x]?).map Entry.older := by
      intro x hx
      by_cases hxp : x = p
      · subst hxp; rw [hAp, hep]; rfl
      · rw [hA x (h5 x hx) hxp]
    have hAkv : ∀ x ∈ built ++ [p],
        (((upd c.arena p fun e => { e with newer := some c.arena.length }) ++
          [{ key := k, value := v, newer := none, older := some p
            }])[x]?).map (fun e : Entry K V => (e.key, e.value)) =
        (c.arena[x]?).map fun e : Entry K V => (e.key, e.value) := by
      intro x hx
      by_cases hxp : x = p
      · subst hxp; rw [hAp, hep]; rfl
      · rw [hA x (h5 x hx) hxp]
    -- invariant for the next iteration
    have hnext : ∀ fuel2 : Option Nat,
        (fuel2 = none ∨ ∃ m2, fuel2 = some m2 ∧ rest.length ≤ m2) →
        (assignLoop (some c.arena.length) fuel2
          { c with
              keymap := mapSet c.keymap k c.arena.length,
              arena :=
                (upd c.arena p fun e =>
                  { e with newer := some c.arena.length }) ++
                [{ key := k, value := v, newer := none, older := some p }],
              oldest := c.oldest } rest).2 = false ∧
        ∃ ids, Valid (assignLoop (some c.arena.length) fuel2
          { c with
              keymap := mapSet c.keymap k c.arena.length,
              arena :=
                (upd c.arena p fun e =>
                  { e with newer := some c.arena.length }) ++
                [{ key := k, value := v, newer := none, older := some p }],
              oldest := c.oldest } rest).1 ids ∧
          (assignLoop (some c.arena.length) fuel2
          { c with
              keymap := mapSet c.keymap k c.arena.length,
              arena :=
                (upd c.arena p fun e =>
                  { e with newer := some c.arena.length }) ++
                [{ key := k, value := v, newer := none, older := some p }],
              oldest := c.oldest } rest).1.limit = c.limit := by
      intro fuel2 hf2
      refine ih _ (built ++ [p]) c.arena.length fuel2 ?_ ?_ ?_ ?_ ?_ ?_ ?_ ?_
        hndr.2 ?_ hf2
      · -- older chain
        rw [olderChain_append]
        refine ⟨olderChain_ext hAold h1, ?_⟩
        rw [back_concat]
        exact olderChain_singleton.mpr ⟨_, hAe, rfl⟩
      · -- newer chain
        rw [newerChain_append]
        have hnc := h2
        rw [newerChain_append] at hnc
        refine ⟨?_, newerChain_singleton.mpr ⟨_, hAe, rfl⟩⟩
        rw [newerChain_append]
        constructor
        · refine newerChain_ext (fun x hx => ?_) hnc.1
          have hxp : x ≠ p := fun he => hpbuilt (he ▸ hx)
          rw [hA x (h5 x (List.mem_append_left _ hx)) hxp]
        · exact newerChain_singleton.mpr ⟨_, hAp, rfl⟩
      · rcases built with _ | ⟨b, built'⟩ <;> exact h3
      · rw [List.nodup_append]
        refine ⟨h4, by simp, ?_⟩
        intro a ha hmem
        simp only [List.mem_singleton] at hmem
        rw [hmem] at ha
        exact absurd (h5 _ ha) (lt_irrefl _)
      · intro x hx
        have hlen : ((upd c.arena p fun e =>
            { e with newer := some c.arena.length }) ++
            ([{ key := k, value := v, newer := none, older := some p }] :
              List (Entry K V))).length
            = c.arena.length + 1 := by
          rw [List.length_append, length_upd]
          rfl
        rw [hlen]
        rcases List.mem_append.mp hx with hx1 | hx2
        · exact Nat.lt_succ_of_lt (h5 x hx1)
        · simp only [List.mem_singleton] at hx2
          rw [hx2]
          exact Nat.lt_succ_self _
      · rw [hset, List.map_append, h6]
        rfl
      · rw [hset, List.map_append]
        rw [List.nodup_append]
        refine ⟨h7, by simp, ?_⟩
        intro a ha hmem
        simp only [List.map_cons, List.map_nil, List.mem_singleton] at hmem
        rw [hmem] at ha
        exact (mapGet_eq_none_iff.mp hkabs) ha
      · intro q hq
        rw [hset] at hq
        rcases List.mem_append.mp hq with hq1 | hq2
        · obtain ⟨e, he, hek⟩ := h8 q hq1
          have hqmem : q.2 ∈ built ++ [p] := by
            rw [← h6]
            exact List.mem_map.mpr ⟨q, hq1, rfl⟩
          have hkv := hAkv q.2 hqmem
          rw [he] at hkv
          obtain ⟨e4, he4, hkv4⟩ := Option.map_eq_some'.mp hkv
          exact ⟨e4, he4, (congrArg Prod.fst hkv4).trans hek⟩
        · have hq3 : q = (k, c.arena.length) := by simpa using hq2
          rw [hq3]
          exact ⟨_, hAe, rfl⟩
      · intro k2 hk2
        rw [hset]
        have hk2ne : k2 ≠ k := fun he => hndr.1 (he ▸ hk2)
        exact mapGet_append_none (h10 k2 (List.mem_cons_of_mem _ hk2)) hk2ne
    rcases h11 with rfl | ⟨m, rfl, hm⟩
    · have hstep : assignLoop (some p) none c ((k, v) :: rest) =
          assignLoop (some c.arena.length) none
            { c with
                keymap := mapSet c.keymap k c.arena.length,
                arena :=
                  (upd c.arena p fun e =>
                    { e with newer := some c.arena.length }) ++
                  [{ key := k, value := v, newer := none, older := some p }],
                oldest := c.oldest } rest := by
        simp only [assignLoop]
      rw [hstep]
      exact hnext none (Or.inl rfl)
    · rcases m with _ | m2
      · simp at hm
      · have hstep : assignLoop (some p) (some (m2 + 1)) c ((k, v) :: rest) =
            assignLoop (some c.arena.length) (some m2)
              { c with
                  keymap := mapSet c.keymap k c.arena.length,
                  arena :=
                    (upd c.arena p fun e =>
                      { e with newer := some c.arena.length }) ++
                    [{ key := k, value := v, newer := none, older := some p }],
                  oldest := c.oldest } rest := by
          simp only [assignLoop]
        rw [hstep]
        refine hnext (some m2) (Or.inr ⟨m2, rfl, ?_⟩)
        simp only [List.length_cons] at hm
        omega

end LRUMap

namespace LRUMap

/-- `assign` with distinct keys, a nonempty sequence and enough capacity
(or an unbounded limit) succeeds and leaves a well-formed cache. -/
theorem valid_assign [DecidableEq K] {c : LRUMap K V} {k : K} {v : V}
    {rest : List (K × V)}
    (hnd : (((k, v) :: rest).map Prod.fst).Nodup)
    (hfuel : c.limit = 0 ∨ ((k, v) :: rest).length ≤ c.limit) :
    (assign c ((k, v) :: rest)).2 = false ∧
      ∃ ids, Valid (assign c ((k, v) :: rest)).1 ids ∧
        (assign c ((k, v) :: rest)).1.limit = c.limit := by
  have hndr := hnd
  rw [List.map_cons, List.nodup_cons] at hndr
  -- the state after the first iteration
  have hfirst : ∀ fuel2 : Option Nat,
      assignLoop none fuel2 { c with keymap := [] } ((k, v) :: rest) =
        match fuel2 with
        | some 0 =>
            ({ c with
                keymap := [(k, c.arena.length)],
                arena := c.arena ++ [⟨k, v, none, none⟩],
                oldest := some c.arena.length }, true)
        | some (m + 1) =>
            assignLoop (some c.arena.length) (some m)
              { c with
                  keymap := [(k, c.arena.length)],
                  arena := c.arena ++ [⟨k, v, none, none⟩],
                  oldest := some c.arena.length } rest
        | none =>
            assignLoop (some c.arena.length) none
              { c with
                  keymap := [(k, c.arena.length)],
                  arena := c.arena ++ [⟨k, v, none, none⟩],
                  oldest := some c.arena.length } rest := by
    intro fuel2
    rcases fuel2 with _ | ⟨_ | m⟩ <;> simp only [assignLoop, mapSet]
  have hinv : ∀ fuel2 : Option Nat,
      (fuel2 = none ∨ ∃ m, fuel2 = some m ∧ rest.length ≤ m) →
      (assignLoop (some c.arena.length) fuel2
        { c with
            keymap := [(k, c.arena.length)],
            arena := c.arena ++ [⟨k, v, none, none⟩],
            oldest := some c.arena.length } rest).2 = false ∧
      ∃ ids, Valid (assignLoop (some c.arena.length) fuel2
        { c with
            keymap := [(k, c.arena.length)],
            arena := c.arena ++ [⟨k, v, none, none⟩],
            oldest := some c.arena.length } rest).1 ids ∧
        (assignLoop (some c.arena.length) fuel2
        { c with
            keymap := [(k, c.arena.length)],
            arena := c.arena ++ [⟨k, v, none, none⟩],
            oldest := some c.arena.length } rest).1.limit = c.limit := by
    intro fuel2 hf2
    refine assignLoop_valid rest _ [] c.arena.length fuel2 ?_ ?_ rfl
      (by simp) ?_ rfl (by simp) ?_ hndr.2 ?_ hf2
    · exact olderChain_singleton.mpr ⟨_, getElem?_append_len c.arena _, rfl⟩
    · exact newerChain_singleton.mpr ⟨_, getElem?_append_len c.arena _, rfl⟩
    · intro x hx
      simp only [List.nil_append, List.mem_singleton] at hx
      rw [hx, List.length_append]
      exact Nat.lt_succ_self _
    · intro q hq
      have hq2 : q = (k, c.arena.length) := by simpa using hq
      rw [hq2]
      exact ⟨_, getElem?_append_len c.arena _, rfl⟩
    · intro k2 hk2
      have hk2ne : ¬ (k = k2) := fun he => hndr.1 (he ▸ hk2)
      simp [mapGet, hk2ne]
  unfold assign
  by_cases h0 : c.limit = 0
  · rw [if_pos h0, hfirst]
    exact hinv none (Or.inl rfl)
  · rw [if_neg h0, hfirst]
    rcases hfuel with hfuel | hfuel
    · exact absurd hfuel h0
    · rcases hlim : c.limit with _ | m
      · exact absurd hlim h0
      · simp only []
        have hlen2 : rest.length ≤ m := by
          rw [hlim] at hfuel
          simp only [List.length_cons] at hfuel
          omega
        have h2 := hinv (some m) (Or.inr ⟨m, rfl, hlen2⟩)
        rw [hlim] at h2
        exact h2

end LRUMap

/-! ## Accounting across a sequence of `set` calls -/

namespace LRUMap

/-- A four-way case analysis of `set` on any well-formed cache: the
result is always well formed, `limit` is untouched, and `size` changes
by the regime (existing key: unchanged; new key with room: `+1`; new
key without room: unchanged, because an eviction or the limit-0 immediate
eviction compensates the insertion). -/
theorem valid_set_cases [DecidableEq K] {c : LRUMap K V} {ids : List Nat}
    (k : K) (v : V) (h : Valid c ids) :
    (∃ ids2, Valid (set c k v) ids2) ∧
      (set c k v).limit = c.limit ∧
      ((mapGet c.keymap k).isSome → (set c k v).size = c.size) ∧
      ((mapGet c.keymap k).isNone → c.size < c.limit →
        (set c k v).size = c.size + 1) ∧
      ((mapGet c.keymap k).isNone → ¬ c.size < c.limit →
        (set c k v).size = c.size) := by
  cases hk : mapGet c.keymap k with
  | some i =>
    obtain ⟨hmem, -⟩ := h.mem_of_mapGet hk
    obtain ⟨xs, ys, rfl⟩ := List.append_of_mem hmem
    obtain ⟨hval, hsz, hlim, -, -, -⟩ := valid_set_existing k v h hk
    exact ⟨⟨_, hval⟩, hlim, fun _ => hsz, fun hns => by simp at hns,
      fun hns => by simp at hns⟩
  | none =>
    by_cases hlt : c.size < c.limit
    · obtain ⟨hval, hsz, hlim, -, -, -⟩ := valid_set_new_small k v h hk hlt
      exact ⟨⟨_, hval⟩, hlim, fun hs => by simp at hs, fun _ _ => hsz,
        fun _ hn => absurd hlt hn⟩
    · cases hids : ids with
      | nil =>
        have hlim0 : c.limit = 0 := by
          have hsz := h.size_eq
          rw [hids] at hsz
          simp at hsz
          omega
        obtain ⟨hval, hsz, hlim, -, -, -⟩ := valid_set_zero k v
          (hids ▸ h) hlim0
        refine ⟨⟨[], hval⟩, hlim, fun hs => by simp [hk] at hs,
          fun _ hl => absurd hl hlt, fun _ _ => ?_⟩
        rw [hsz, h.size_eq, hids]
        rfl
      | cons i rest =>
        have hge : c.limit ≤ c.size := by omega
        obtain ⟨e, -, hval, hsz, hlim, -, -, -⟩ :=
          valid_set_new_evict k v (hids ▸ h) hk hge
        exact ⟨⟨_, hval⟩, hlim, fun hs => by simp [hk] at hs,
          fun _ hl => absurd hl hlt, fun _ _ => hsz⟩

/-- Run a sequence of `set` operations, counting insert events (a `set`
whose key is absent at that moment) and evictions (an insert event that
leaves `size` unchanged, because `shift` removed the oldest entry).
Returns the final state and the two counters. -/
def runSets [DecidableEq K] : LRUMap K V → List (K × V) →
    LRUMap K V × Nat × Nat
  | c, [] => (c, 0, 0)
  | c, (k, v) :: ops =>
      let isNew := (mapGet c.keymap k).isNone
      let c2 := set c k v
      let r := runSets c2 ops
      (r.1, (if isNew then 1 else 0) + r.2.1,
        (if isNew ∧ c2.size = c.size then 1 else 0) + r.2.2)

/-- Across any run of `set` operations from a well-formed state the
final state is well formed, `limit` never changes, and the size
accounting balances: final size plus evictions equals initial size plus
insert events. -/
theorem runSets_spec [DecidableEq K] :
    ∀ (ops : List (K × V)) (c : LRUMap K V) (ids : List Nat),
    Valid c ids →
    (∃ ids2, Valid (runSets c ops).1 ids2) ∧
      (runSets c ops).1.limit = c.limit ∧
      (runSets c ops).1.size + (runSets c ops).2.2 =
        c.size + (runSets c ops).2.1 := by
  intro ops
  induction ops with
  | nil =>
    intro c ids h
    exact ⟨⟨ids, h⟩, rfl, rfl⟩
  | cons op rest ih =>
    intro c ids h
    obtain ⟨k, v⟩ := op
    obtain ⟨⟨ids2, hval2⟩, hlim2, hsome, hnew, hfull⟩ :=
      valid_set_cases k v h
    obtain ⟨hval3, hlim3, hacc⟩ := ih (set c k v) ids2 hval2
    simp only [runSets]
    refine ⟨hval3, by rw [hlim3, hlim2], ?_⟩
    cases hk : mapGet c.keymap k with
    | some i =>
      have hsz : (set c k v).size = c.size := hsome (by rw [hk]; rfl)
      simp only [hk, Option.isNone_some, Bool.false_eq_true, false_and,
        if_neg, ite_false]
      omega
    | none =>
      by_cases hlt : c.size < c.limit
      · have hsz : (set c k v).size = c.size + 1 :=
          hnew (by rw [hk]; rfl) hlt
        simp [hsz]
        omega
      · have hsz : (set c k v).size = c.size := hfull (by rw [hk]; rfl) hlt
        simp [hsz]
        omega

end LRUMap

/-! ## Concrete fixture states

Small concrete caches used to instantiate the general theorems, plus
the states of the spec's worked scenarios. -/

namespace LRUMap

/-- A limit-2 cache filled with keys 1, 2 (values 10, 20). -/
def demo2 : LRUMap Nat Nat := ((mk0 2).set 1 10).set 2 20

/-- A limit-3 cache filled with keys 1, 2, 3 (values 1, 2, 3). -/
def demo3 : LRUMap Nat Nat := (((mk0 3).set 1 1).set 2 2).set 3 3

/-- Scenario A: capacity 3; set 1, 2, 3; `get 1`; then `set 4`. -/
def scenarioA : LRUMap Nat Nat := ((demo3.get 1).1).set 4 4

/-- Scenario D: bulk construction with 4 pairs and explicit capacity 4. -/
def scenarioD : LRUMap Nat Nat × Bool :=
  construct 4 [(1, 10), (2, 20), (3, 30), (4, 40)]

/-- The fixture `demo2` is well formed with recency sequence `[0, 1]`. -/
theorem valid_demo2 : Valid demo2 [0, 1] :=
  (valid_set_new_small 2 20
    (valid_set_new_small 1 10 (valid_mk0 2) (by decide) (by decide)).1
    (by decide) (by decide)).1

/-- The fixture `demo3` is well formed with recency sequence `[0, 1, 2]`. -/
theorem valid_demo3 : Valid demo3 [0, 1, 2] :=
  (valid_set_new_small 3 3
    (valid_set_new_small 2 2
      (valid_set_new_small 1 1 (valid_mk0 3) (by decide) (by decide)).1
      (by decide) (by decide)).1
    (by decide) (by decide)).1

/-- A single `set` from a state with `size ≤ limit` keeps
`size ≤ limit` (the eviction in lines 129–132 compensates the
increment of line 128). -/
theorem set_size_le [DecidableEq K] {c : LRUMap K V} {ids : List Nat}
    (k : K) (v : V) (h : Valid c ids) (hle : c.size ≤ c.limit) :
    (set c k v).size ≤ c.limit := by
  obtain ⟨-, -, hsome, hnew, hfull⟩ := valid_set_cases k v h
  cases hk : mapGet c.keymap k with
  | some i =>
    rw [hsome (by rw [hk]; rfl)]
    exact hle
  | none =>
    by_cases hlt : c.size < c.limit
    · rw [hnew (by rw [hk]; rfl) hlt]
      omega
    · rw [hfull (by rw [hk]; rfl) hlt]
      exact hle

/-- Along any run of `set` operations from a well-formed state with
`size ≤ limit`, the bound `size ≤ limit` still holds at the end. -/
theorem runSets_size_le [DecidableEq K] :
    ∀ (ops : List (K × V)) (c : LRUMap K V) (ids : List Nat),
    Valid c ids → c.size ≤ c.limit →
    (runSets c ops).1.size ≤ (runSets c ops).1.limit := by
  intro ops
  induction ops with
  | nil =>
    intro c ids h hle
    exact hle
  | cons op rest ih =>
    intro c ids h hle
    obtain ⟨k, v⟩ := op
    obtain ⟨⟨ids2, hval2⟩, hlim2, -, -, -⟩ := valid_set_cases k v h
    have hle2 : (set c k v).size ≤ (set c k v).limit := by
      rw [hlim2]
      exact set_size_le k v h hle
    exact ih (set c k v) ids2 hval2 hle2

end LRUMap

/-! ## The claims -/

namespace LRUMap

/-- Claim C1 (eviction correctness): on a well-formed cache whose size
equals its nonzero limit, `set` of an absent key keeps `size` constant,
evicts exactly the current oldest entry (its key leaves the index while
the new key enters), and the surviving entries keep their relative
recency order with the new entry as newest; concretely, with capacity
3, after set 1, set 2, set 3, get 1, set 4 the evicted key is 2 and the
oldest-to-newest key order is 3, 1, 4. -/
theorem claim_c1_eviction [DecidableEq K] {c : LRUMap K V} {i : Nat}
    {rest : List Nat} (k : K) (v : V) (h : Valid c (i :: rest))
    (hfull : c.size = c.limit) (hpos : 0 < c.limit)
    (hk : mapGet c.keymap k = none) :
    (∃ e, c.arena[i]? = some e ∧
      Valid (set c k v) (rest ++ [c.arena.length]) ∧
      (set c k v).size = c.size ∧
      mapGet (set c k v).keymap e.key = none ∧
      mapGet (set c k v).keymap k = some c.arena.length ∧
      (set c k v).newest = some c.arena.length) ∧
    keyList scenarioA = [3, 1, 4] ∧
    find scenarioA 2 = none ∧
    find scenarioA 3 = some 3 ∧
    find scenarioA 1 = some 1 ∧
    find scenarioA 4 = some 4 := by
  refine ⟨?_, by decide, by decide, by decide, by decide, by decide⟩
  obtain ⟨e, he, hval, hsz, -, hke, hkk, hnw⟩ :=
    valid_set_new_evict k v h hk (le_of_eq hfull.symm)
  exact ⟨e, he, hval, hsz, hke, hkk, hnw⟩

theorem claim_c1_witness :
    (set demo2 3 30).size = demo2.size ∧
    mapGet (set demo2 3 30).keymap 3 = some 2 ∧
    mapGet (set demo2 3 30).keymap 1 = none := by
  obtain ⟨⟨e, he, -, hsz, hke, hkk, -⟩, -⟩ :=
    claim_c1_eviction 3 30 valid_demo2 rfl (by decide) (by decide)
  refine ⟨hsz, hkk, ?_⟩
  have hek : e.key = 1 := by
    have h1 : demo2.arena[0]? = some ⟨1, 10, some 1, none⟩ := by decide
    rw [he] at h1
    cases Option.some.inj h1
    rfl
  rw [← hek]
  exact hke

/-- Claim C2 (size bound and accounting, amended): from any well-formed
state with `size ≤ limit`, every completed `set` keeps `size ≤ limit`;
and across any sequence of `set` calls from a fresh cache, `size` stays
at most `limit` and equals the number of insert events minus the number
of evictions.  The claim's literal accounting — distinct keys inserted
minus evictions — is refuted by `claim_c2_counterexample`: an evicted
key can be re-inserted, so one distinct key can produce several insert
events. -/
theorem claim_c2_size_accounting [DecidableEq K] (c : LRUMap K V)
    (ids : List Nat) (k : K) (v : V) (h : Valid c ids)
    (hle : c.size ≤ c.limit) :
    (set c k v).size ≤ c.limit ∧
    ∀ (L : Nat) (ops : List (K × V)),
      (runSets (mk0 L : LRUMap K V) ops).1.size ≤ L ∧
      (runSets (mk0 L : LRUMap K V) ops).1.size +
          (runSets (mk0 L : LRUMap K V) ops).2.2 =
        (runSets (mk0 L : LRUMap K V) ops).2.1 := by
  refine ⟨set_size_le k v h hle, fun L ops => ⟨?_, ?_⟩⟩
  · have h1 := runSets_size_le ops (mk0 L) [] (valid_mk0 L) (Nat.zero_le _)
    have h2 := (runSets_spec ops (mk0 L) [] (valid_mk0 L)).2.1
    rw [h2] at h1
    exact h1
  · have h3 := (runSets_spec ops (mk0 L) [] (valid_mk0 L)).2.2
    exact h3.trans (Nat.zero_add _)

theorem claim_c2_counterexample :
    (runSets (mk0 1 : LRUMap Nat Nat) [(1, 1), (2, 2), (1, 3)]).1.size = 1 ∧
    ([1, 2, 1] : List Nat).dedup.length = 2 ∧
    (runSets (mk0 1 : LRUMap Nat Nat) [(1, 1), (2, 2), (1, 3)]).2.2 = 2 ∧
    (1 : Nat) ≠ 2 - 2 := by
  refine ⟨by decide, by decide, by decide, by decide⟩

theorem claim_c2_witness :
    ((mk0 1 : LRUMap Nat Nat).set 5 7).size ≤ (mk0 1 : LRUMap Nat Nat).limit ∧
    (runSets (mk0 1 : LRUMap Nat Nat) [(1, 1), (2, 2), (1, 3)]).1.size ≤ 1 ∧
    (runSets (mk0 1 : LRUMap Nat Nat) [(1, 1), (2, 2), (1, 3)]).1.size +
        (runSets (mk0 1 : LRUMap Nat Nat) [(1, 1), (2, 2), (1, 3)]).2.2 =
      (runSets (mk0 1 : LRUMap Nat Nat) [(1, 1), (2, 2), (1, 3)]).2.1 := by
  have h := claim_c2_size_accounting (mk0 1) [] 5 7 (valid_mk0 1)
    (Nat.zero_le _)
  exact ⟨h.1, (h.2 1 [(1, 1), (2, 2), (1, 3)]).1,
    (h.2 1 [(1, 1), (2, 2), (1, 3)]).2⟩

/-- Claim C3 (get semantics): `get` of an absent key returns nothing
and leaves the whole state unchanged; `get` of a present key returns
the value last stored for it and promotes its entry to newest (and
`set` on an existing key likewise makes that key's entry newest, with
a following `get` returning the new value; a new key stored with room
also reads back). -/
theorem claim_c3_get_semantics [DecidableEq K] {c : LRUMap K V}
    (xs ys : List Nat) (i : Nat) (k : K) (v : V)
    (h : Valid c (xs ++ i :: ys)) :
    (mapGet c.keymap k = none → get c k = (c, none)) ∧
    (mapGet c.keymap k = none → c.size < c.limit →
      ((set c k v).get k).2 = some v) ∧
    (mapGet c.keymap k = some i →
      (∃ e, c.arena[i]? = some e ∧ e.key = k ∧
        (get c k).2 = some e.value ∧
        Valid (get c k).1 (xs ++ ys ++ [i]) ∧
        (get c k).1.newest = some i ∧
        (get c k).1.size = c.size ∧
        (get c k).1.keymap = c.keymap) ∧
      (set c k v).newest = some i ∧
      ((set c k v).get k).2 = some v) := by
  refine ⟨fun hk => get_absent hk, fun hk hlt => ?_, fun hk => ?_⟩
  · obtain ⟨hval, -, -, hkm, -, hkv⟩ := valid_set_new_small k v h hk hlt
    obtain ⟨e2, he2, -, -, hg2, -⟩ := valid_get_present k hval hkm
    rw [he2] at hkv
    have hv2 : e2.value = v :=
      congrArg Prod.snd (Option.some.inj hkv)
    rw [hg2, hv2]
  · obtain ⟨e, he, hek, -, hg2, hvalg, hnwg, hszg, -, hkmg⟩ :=
      valid_get_present k h hk
    obtain ⟨hvalS, -, -, hkmS, hnwS, hkvS⟩ := valid_set_existing k v h hk
    refine ⟨⟨e, he, hek, hg2, hvalg, hnwg, hszg, hkmg⟩, hnwS, ?_⟩
    have hkS : mapGet (set c k v).keymap k = some i := by
      rw [hkmS]
      exact hk
    obtain ⟨e3, he3, -, -, hg3, -⟩ := valid_get_present k hvalS hkS
    rw [he3] at hkvS
    have hv3 : e3.value = v :=
      congrArg Prod.snd (Option.some.inj hkvS)
    rw [hg3, hv3]

theorem claim_c3_witness :
    get demo2 3 = (demo2, none) ∧
    ((set demo2 1 99).get 1).2 = some 99 ∧
    (get demo2 1).1.newest = some 0 ∧
    (get demo2 1).2 = some 10 := by
  have h := claim_c3_get_semantics [] [1] 0 1 99 valid_demo2
  have h3 := claim_c3_get_semantics [] [1] 0 3 99 valid_demo2
  obtain ⟨⟨e, he, -, hg2, -, hnw, -, -⟩, -, hsg⟩ := h.2.2 rfl
  refine ⟨h3.1 (by decide), hsg, hnw, ?_⟩
  have hev : e.value = 10 := by
    have h1 : demo2.arena[0]? = some ⟨1, 10, some 1, none⟩ := by decide
    rw [he] at h1
    cases Option.some.inj h1
    rfl
  rw [hg2, hev]

/-- Claim C4 (invariant preservation, amended): every one of `set`,
`get`, `delete`, `shift` and `clear` started from a well-formed state
leaves a well-formed state (a recency sequence exists matching the
links, endpoints, `size` and the index), and so does `assign` with
distinct keys on a *nonempty* input when it returns normally.  The
claim as stated is refuted by `claim_c4_counterexample`: `assign` with
an empty input returns normally but leaves a stale `oldest` pointer
(the invariant fails), because lines 73–74 only reset `oldest` when at
least one pair is read. -/
theorem claim_c4_invariant_preservation [DecidableEq K]
    {c : LRUMap K V} {ids : List Nat} (h : Valid c ids) :
    (∀ (k : K) (v : V), ∃ ids2, Valid (set c k v) ids2) ∧
    (∀ k : K, ∃ ids2, Valid (get c k).1 ids2) ∧
    (∀ k : K, ∃ ids2, Valid (delete c k).1 ids2) ∧
    (∃ ids2, Valid (shift c).1 ids2) ∧
    Valid (clear c) [] ∧
    (∀ es : List (K × V), (es.map Prod.fst).Nodup → es ≠ [] →
      (assign c es).2 = false →
      ∃ ids2, Valid (assign c es).1 ids2) := by
  refine ⟨fun k v => (valid_set_cases k v h).1, fun k => ?_, fun k => ?_,
    ?_, valid_clear c, fun es hnd hne hok => ?_⟩
  · cases hk : mapGet c.keymap k with
    | none =>
      rw [get_absent hk]
      exact ⟨ids, h⟩
    | some i =>
      obtain ⟨hmem, -⟩ := h.mem_of_mapGet hk
      obtain ⟨xs, ys, rfl⟩ := List.append_of_mem hmem
      obtain ⟨e, -, -, -, -, hval, -⟩ := valid_get_present k h hk
      exact ⟨_, hval⟩
  · cases hk : mapGet c.keymap k with
    | none =>
      rw [delete_absent hk]
      exact ⟨ids, h⟩
    | some i =>
      obtain ⟨hmem, -⟩ := h.mem_of_mapGet hk
      obtain ⟨xs, ys, rfl⟩ := List.append_of_mem hmem
      obtain ⟨e, -, -, -, hval, -⟩ := valid_delete k h hk
      exact ⟨_, hval⟩
  · rcases ids with _ | ⟨i, rest⟩
    · rw [shift_empty (by rw [h.oldest_eq]; rfl)]
      exact ⟨[], h⟩
    · obtain ⟨e, -, -, hval, -⟩ := valid_shift h
      exact ⟨_, hval⟩
  · rcases es with _ | ⟨⟨k, v⟩, rest⟩
    · exact absurd rfl hne
    · have hfuel : c.limit = 0 ∨ ((k, v) :: rest).length ≤ c.limit := by
        by_cases h0 : c.limit = 0
        · exact Or.inl h0
        · right
          by_contra hgt
          have ht : (assign c ((k, v) :: rest)).2 = true :=
            (assign_overflow_iff c ((k, v) :: rest)).mpr ⟨h0, by omega⟩
          rw [hok] at ht
          exact Bool.false_ne_true ht
      obtain ⟨-, ids2, hval, -⟩ := valid_assign hnd hfuel
      exact ⟨ids2, hval⟩

theorem claim_c4_counterexample :
    (assign ((mk0 2 : LRUMap Nat Nat).set 1 1)
      ([] : List (Nat × Nat))).2 = false ∧
    (assign ((mk0 2 : LRUMap Nat Nat).set 1 1)
      ([] : List (Nat × Nat))).1.oldest = some 0 ∧
    (assign ((mk0 2 : LRUMap Nat Nat).set 1 1)
      ([] : List (Nat × Nat))).1.newest = none ∧
    ¬ ∃ ids, Valid (assign ((mk0 2 : LRUMap Nat Nat).set 1 1)
      ([] : List (Nat × Nat))).1 ids := by
  refine ⟨rfl, rfl, rfl, ?_⟩
  rintro ⟨ids, hv⟩
  have h2 : ids.getLast? = none := hv.newest_eq.symm
  have hnil : ids = [] := List.getLast?_eq_none_iff.mp h2
  have h1 : (some 0 : Option Nat) = ids.head? := hv.oldest_eq
  rw [hnil] at h1
  simp at h1

theorem claim_c4_witness :
    (∃ ids2, Valid (set demo2 5 50) ids2) ∧
    (∃ ids2, Valid (shift demo2).1 ids2) ∧
    (∃ ids2, Valid (delete demo2 1).1 ids2) := by
  have h := claim_c4_invariant_preservation valid_demo2
  exact ⟨h.1 5 50, h.2.2.2.1, h.2.2.1 1⟩

/-- Claim C5 (assign overflow condition): `assign` throws exactly when
`limit` is nonzero and the number of supplied pairs exceeds `limit`;
in particular 5 pairs into a fresh cache of limit 4 throw, 4 pairs do
not, and with `limit = 0` the call never throws. -/
theorem claim_c5_assign_overflow [DecidableEq K] (c : LRUMap K V)
    (es : List (K × V)) :
    ((assign c es).2 = true ↔ c.limit ≠ 0 ∧ c.limit < es.length) ∧
    (assign (mk0 4 : LRUMap Nat Nat)
      [(1, 1), (2, 2), (3, 3), (4, 4), (5, 5)]).2 = true ∧
    (assign (mk0 4 : LRUMap Nat Nat)
      [(1, 1), (2, 2), (3, 3), (4, 4)]).2 = false ∧
    (assign (mk0 0 : LRUMap Nat Nat)
      [(1, 1), (2, 2), (3, 3), (4, 4), (5, 5)]).2 = false :=
  ⟨assign_overflow_iff c es, by decide, by decide, by decide⟩

end LRUMap

namespace LRUMap

/-- Claim C6 (state after a failed assign, amended): when `assign`
throws, the cache is *not* left empty: the index was cleared up front
(line 68) and then refilled as pairs were read, so after the failure it
holds exactly the first `limit + 1` input keys, while `size` and
`newest` keep their stale pre-call values (lines 84–85 never ran).  The
claim's words — that the cache holds no entries after the failure — are
refuted by `claim_c6_counterexample`. -/
theorem claim_c6_assign_failure_state [DecidableEq K] (c : LRUMap K V)
    (es : List (K × V)) (hl0 : c.limit ≠ 0) (hlen : c.limit < es.length)
    (hnd : ((es.take (c.limit + 1)).map Prod.fst).Nodup) :
    (assign c es).2 = true ∧
    (assign c es).1.keymap.map Prod.fst =
      (es.take (c.limit + 1)).map Prod.fst ∧
    (assign c es).1.size = c.size ∧
    (assign c es).1.newest = c.newest ∧
    (assign c es).1.limit = c.limit := by
  obtain ⟨ht, hsz, hnw, hlim, hkm⟩ := assign_overflow_state c es hl0 hlen hnd
  exact ⟨ht, hkm, hsz, hnw, hlim⟩

theorem claim_c6_counterexample :
    (assign ((mk0 1 : LRUMap Nat Nat).set 10 10) [(20, 2), (30, 3)]).2 =
      true ∧
    (assign ((mk0 1 : LRUMap Nat Nat).set 10 10)
      [(20, 2), (30, 3)]).1.keymap = [(20, 1), (30, 2)] ∧
    (assign ((mk0 1 : LRUMap Nat Nat).set 10 10)
      [(20, 2), (30, 3)]).1.keymap ≠ [] ∧
    (assign ((mk0 1 : LRUMap Nat Nat).set 10 10)
      [(20, 2), (30, 3)]).1.size = 1 := by
  refine ⟨by decide, by decide, by decide, by decide⟩

theorem claim_c6_witness :
    (assign ((mk0 1 : LRUMap Nat Nat).set 10 10) [(20, 2), (30, 3)]).2 =
      true ∧
    (assign ((mk0 1 : LRUMap Nat Nat).set 10 10)
      [(20, 2), (30, 3)]).1.keymap.map Prod.fst = [20, 30] := by
  have h := claim_c6_assign_failure_state ((mk0 1 : LRUMap Nat Nat).set 10 10)
    [(20, 2), (30, 3)] (by decide) (by decide) (by decide)
  exact ⟨h.1, h.2.1⟩

/-- Claim C7 (delete semantics): `delete` of an absent key returns
nothing and changes nothing; `delete` of a present key — wherever its
entry sits in the recency sequence — removes exactly that entry from
the sequence and the index, decrements `size` by one, and returns the
stored value. -/
theorem claim_c7_delete_semantics [DecidableEq K] {c : LRUMap K V}
    {ids : List Nat} (k : K) (h : Valid c ids) :
    (mapGet c.keymap k = none → delete c k = (c, none)) ∧
    (∀ (xs : List Nat) (i : Nat) (ys : List Nat), ids = xs ++ i :: ys →
      mapGet c.keymap k = some i →
      ∃ e, c.arena[i]? = some e ∧ e.key = k ∧
        (delete c k).2 = some e.value ∧
        Valid (delete c k).1 (xs ++ ys) ∧
        (delete c k).1.size + 1 = c.size ∧
        mapGet (delete c k).1.keymap k = none) := by
  refine ⟨fun hk => delete_absent hk, fun xs i ys hids hk => ?_⟩
  subst hids
  obtain ⟨e, he, hek, hdv, hval, hsz, -, hkm, -⟩ := valid_delete k h hk
  refine ⟨e, he, hek, hdv, hval, ?_, hkm⟩
  have hlen := h.size_eq
  rw [hsz, hlen]
  simp only [List.length_append, List.length_cons]
  omega

theorem claim_c7_witness :
    delete demo2 5 = (demo2, none) ∧
    (delete demo2 1).1.size + 1 = demo2.size ∧
    (delete demo2 1).2 = some 10 := by
  have h1 := claim_c7_delete_semantics 5 valid_demo2
  have h2 := claim_c7_delete_semantics 1 valid_demo2
  obtain ⟨e, he, -, hdv, -, hsz, -⟩ := h2.2 [] 0 [1] rfl rfl
  refine ⟨h1.1 (by decide), hsz, ?_⟩
  have hev : e.value = 10 := by
    have hx : demo2.arena[0]? = some ⟨1, 10, some 1, none⟩ := by decide
    rw [he] at hx
    cases Option.some.inj hx
    rfl
  rw [hdv, hev]

/-- Claim C8 (shift semantics): on a nonempty well-formed cache `shift`
removes the current oldest entry, unlinks it from sequence and index,
decrements `size` by one and returns its key-value pair; on an empty
cache it returns nothing and changes nothing; and a cache bulk
constructed from 4 pairs with explicit capacity 4 yields those pairs in
original order under 4 successive shifts, the fifth returning
nothing. -/
theorem claim_c8_shift_semantics [DecidableEq K] {c : LRUMap K V}
    {ids : List Nat} (h : Valid c ids) :
    (ids = [] → shift c = (c, none)) ∧
    (∀ (i : Nat) (rest : List Nat), ids = i :: rest →
      ∃ e, c.arena[i]? = some e ∧
        (shift c).2 = some (e.key, e.value) ∧
        Valid (shift c).1 rest ∧
        (shift c).1.size + 1 = c.size ∧
        mapGet (shift c).1.keymap e.key = none) ∧
    (scenarioD.2 = false ∧ scenarioD.1.limit = 4 ∧
      (shift scenarioD.1).2 = some (1, 10) ∧
      (shift (shift scenarioD.1).1).2 = some (2, 20) ∧
      (shift (shift (shift scenarioD.1).1).1).2 = some (3, 30) ∧
      (shift (shift (shift (shift scenarioD.1).1).1).1).2 = some (4, 40) ∧
      (shift (shift (shift (shift (shift scenarioD.1).1).1).1).1).2 =
        none) := by
  refine ⟨fun hids => ?_, fun i rest hids => ?_, by decide⟩
  · subst hids
    exact shift_empty (by rw [h.oldest_eq]; rfl)
  · subst hids
    obtain ⟨e, he, hp, hval, hsz, -, hkm, -⟩ := valid_shift h
    refine ⟨e, he, hp, hval, ?_, hkm⟩
    have hlen := h.size_eq
    rw [hsz, hlen]
    simp only [List.length_cons]
    omega

theorem claim_c8_witness :
    (shift demo2).1.size + 1 = demo2.size ∧
    shift (mk0 5 : LRUMap Nat Nat) = (mk0 5, none) := by
  have h := claim_c8_shift_semantics valid_demo2
  obtain ⟨e, -, -, -, hsz, -⟩ := h.2.1 0 [1] rfl
  exact ⟨hsz, (claim_c8_shift_semantics (valid_mk0 5)).1 rfl⟩

/-- Claim C9 (limit 0, amended): a cache with `limit = 0` does *not*
retain entries under `set`: the insertion pushes `size` to `0 + 1 >
limit`, so line 131 immediately evicts the freshly inserted entry and
the cache stays empty — refuting the claim's "stores the entry without
evicting it" (see `claim_c9_counterexample`).  The unbounded behaviour
with `limit = 0` holds only for `assign`, which never throws then. -/
theorem claim_c9_limit_zero [DecidableEq K] (k : K) (v : V)
    {c : LRUMap K V} (h : Valid c []) (hlim : c.limit = 0) :
    (set c k v).size = 0 ∧ Valid (set c k v) [] ∧
    mapGet (set c k v).keymap k = none ∧
    (set c k v).oldest = none ∧ (set c k v).newest = none ∧
    ∀ (c2 : LRUMap K V) (es : List (K × V)), c2.limit = 0 →
      (assign c2 es).2 = false := by
  obtain ⟨hval, hsz, -, hkm, hold, hnw⟩ := valid_set_zero k v h hlim
  refine ⟨hsz, hval, hkm, hold, hnw, fun c2 es h0 => ?_⟩
  cases hb : (assign c2 es).2 with
  | false => rfl
  | true => exact absurd h0 ((assign_overflow_iff c2 es).mp hb).1

theorem claim_c9_counterexample :
    ((mk0 0 : LRUMap Nat Nat).set 1 11).size = 0 ∧
    find ((mk0 0 : LRUMap Nat Nat).set 1 11) 1 = none ∧
    ((mk0 0 : LRUMap Nat Nat).set 1 11).keymap = [] ∧
    ((mk0 0 : LRUMap Nat Nat).set 1 11).oldest = none ∧
    ((mk0 0 : LRUMap Nat Nat).set 1 11).newest = none := by
  refine ⟨by decide, by decide, by decide, by decide, by decide⟩

theorem claim_c9_witness :
    ((mk0 0 : LRUMap Nat Nat).set 2 22).size = 0 ∧
    (assign (mk0 0 : LRUMap Nat Nat) [(1, 1), (2, 2), (3, 3)]).2 =
      false := by
  have h := claim_c9_limit_zero 2 22 (valid_mk0 0) rfl
  exact ⟨h.1, h.2.2.2.2.2 (mk0 0) [(1, 1), (2, 2), (3, 3)] rfl⟩

/-- Claim C10 (links of an unlinked entry, amended): `shift` does clear
the removed entry's `newer`/`older` links (line 154), but `delete` does
*not* touch the removed entry's own links — it only rewires the
neighbours (lines 186–203) — so after `delete` the removed entry keeps
dangling references into the live sequence, refuting the claim for
`delete` (see `claim_c10_counterexample`). -/
theorem claim_c10_unlink_links [DecidableEq K] {c : LRUMap K V}
    {ids : List Nat} (k : K) (h : Valid c ids) :
    (∀ (i : Nat) (rest : List Nat), ids = i :: rest →
      ∃ e, c.arena[i]? = some e ∧
        (shift c).1.arena[i]? =
          some { e with newer := none, older := none }) ∧
    (∀ i : Nat, mapGet c.keymap k = some i →
      (delete c k).1.arena[i]? = c.arena[i]?) := by
  refine ⟨fun i rest hids => ?_, fun i hk => ?_⟩
  · subst hids
    obtain ⟨e, he, -, -, -, -, -, hcl⟩ := valid_shift h
    exact ⟨e, he, hcl⟩
  · obtain ⟨hmem, -⟩ := h.mem_of_mapGet hk
    obtain ⟨xs, ys, rfl⟩ := List.append_of_mem hmem
    obtain ⟨e, -, -, -, -, -, -, -, hpres⟩ := valid_delete k h hk
    exact hpres

theorem claim_c10_counterexample :
    (delete demo3 2).2 = some 2 ∧
    ((delete demo3 2).1.arena[1]?).map
      (fun e => (e.newer, e.older)) = some (some 2, some 0) ∧
    ((delete demo3 2).1.arena[1]?).map
      (fun e => (e.newer, e.older)) ≠ some (none, none) := by
  refine ⟨by decide, by decide, by decide⟩

theorem claim_c10_witness :
    (delete demo3 2).1.arena[1]? = demo3.arena[1]? ∧
    (∃ e, demo3.arena[0]? = some e ∧
      (shift demo3).1.arena[0]? =
        some { e with newer := none, older := none }) := by
  have h := claim_c10_unlink_links 2 valid_demo3
  exact ⟨h.2 1 rfl, h.1 0 [1, 2] rfl⟩

end LRUMap
